import Mathlib

/-!
Verification of the deadlock-detection kitchen-resource simulator.

The Python modules `resource_manager.py`, `order_manager.py` and
`deadlock_detector.py` are embedded shallowly: Python dicts become
association lists (`Dict`) preserving insertion order and first-match
lookup, integer quantities become `Int`, and operations that can raise a
`KeyError` (bare `d[k]` indexing on a possibly-missing key) return
`Option`. Database calls (`db_manager.py`) are external persistence with
no effect on the in-memory state the claims are about, so they are not
modelled. Python's `sorted` is a stable sort and is modelled by the
stable `List.insertionSort`; Python sets are modelled as duplicate-free
lists with membership-insensitive order.

The file is organised as definitions first, then the lemmas and the
claim theorems.
-/

namespace DD

/-- A Python dict: an insertion-ordered association list with unique keys
(uniqueness is assumed via `Nodup` hypotheses where a proof needs it). -/
abbrev Dict (α β : Type) := List (α × β)

variable {α β : Type} [DecidableEq α]

/-- `d.get(k)` as `Option`: first matching entry. -/
def dget : Dict α β → α → Option β
  | [], _ => none
  | (k', v) :: rest, k => if k' = k then some v else dget rest k

/-- `d.get(k, dflt)`. -/
def dgetD (d : Dict α β) (k : α) (dflt : β) : β := (dget d k).getD dflt

/-- `d[k] = v`: update in place if present, else append (Python insertion
order). -/
def dset : Dict α β → α → β → Dict α β
  | [], k, v => [(k, v)]
  | (k', v') :: rest, k, v =>
      if k' = k then (k, v) :: rest else (k', v') :: dset rest k v

/-- `del d[k]` (on a dict with unique keys; modelled as removing every
entry with that key, which coincides on well-formed dicts). -/
def derase : Dict α β → α → Dict α β
  | [], _ => []
  | (k', v) :: rest, k => if k' = k then derase rest k else (k', v) :: derase rest k

/-- `k in d`. -/
def dmem (d : Dict α β) (k : α) : Bool := (dget d k).isSome

/-- `list(d.keys())`. -/
def dkeys (d : Dict α β) : List α := d.map Prod.fst

/-- `d[k] op= q` over a list of entries, failing (`KeyError`) on a missing
key: models Python loops of the form `for res, qty in m.items():
d[res] -= qty` (and the `+=` variant). -/
def updEntries (op : Int → Int → Int) :
    Dict String Int → List (String × Int) → Option (Dict String Int)
  | avail, [] => some avail
  | avail, (res, qty) :: rest =>
      match dget avail res with
      | none => none
      | some v => updEntries op (dset avail res (op v qty)) rest

/-!  ## `resource_manager.py` -/

/-- In-memory state of `ResourceManager` (the database handle is external
persistence and carries no in-memory state the claims depend on). -/
structure RM where
  total_resources : Dict String Int
  available_resources : Dict String Int
  allocated_resources : Dict String (Dict String Int)
deriving DecidableEq

/-- `ResourceManager._can_allocate`: every requested resource has
`available.get(res, 0) >= qty`. -/
def RM.can_allocate (rm : RM) (request : Dict String Int) : Bool :=
  request.all (fun p => !(dgetD rm.available_resources p.1 0 < p.2))

/-- `ResourceManager._allocate`: subtract each requested quantity from
`available` (bare indexing — a missing key raises, hence `Option`) and
overwrite the order's allocation record with a copy of the request. -/
def RM.allocate (rm : RM) (order_id : String) (request : Dict String Int) :
    Option RM :=
  (updEntries (fun v q => v - q) rm.available_resources request).map fun avail =>
    { rm with
        available_resources := avail
        allocated_resources := dset rm.allocated_resources order_id request }

/-- `ResourceManager.request_resources`. -/
def RM.request_resources (rm : RM) (order_id : String)
    (request : Dict String Int) : Option (Bool × RM) :=
  if rm.can_allocate request then
    (rm.allocate order_id request).map fun rm' => (true, rm')
  else
    some (false, rm)

/-- `ResourceManager.release_resources`: if the order holds an allocation,
add each held quantity back to `available` (bare indexing, hence `Option`)
and delete the allocation record; otherwise do nothing. -/
def RM.release_resources (rm : RM) (order_id : String) : Option RM :=
  match dget rm.allocated_resources order_id with
  | none => some rm
  | some alloc =>
      (updEntries (fun v q => v + q) rm.available_resources alloc).map fun avail =>
        { rm with
            available_resources := avail
            allocated_resources := derase rm.allocated_resources order_id }

/-- `ResourceManager.preempt_resources`: same in-memory mechanics as
release (the two differ only in the caller's intent). -/
def RM.preempt_resources (rm : RM) (order_id : String) : Option RM :=
  match dget rm.allocated_resources order_id with
  | none => some rm
  | some alloc =>
      (updEntries (fun v q => v + q) rm.available_resources alloc).map fun avail =>
        { rm with
            available_resources := avail
            allocated_resources := derase rm.allocated_resources order_id }

/-- `ResourceManager.add_virtual_resources`: raise `total` and `available`
by each addition, creating missing resources with default 0. -/
def RM.add_virtual_resources (rm : RM) (additions : Dict String Int) : RM :=
  additions.foldl
    (fun rm p =>
      { rm with
          total_resources :=
            dset rm.total_resources p.1 (dgetD rm.total_resources p.1 0 + p.2)
          available_resources :=
            dset rm.available_resources p.1 (dgetD rm.available_resources p.1 0 + p.2) })
    rm

/-- Total quantity of resource `r` currently granted, summed over all
allocation records. -/
def sumAlloc (allocated : Dict String (Dict String Int)) (r : String) : Int :=
  (allocated.map (fun p => dgetD p.2 r 0)).sum

/-- The conservation invariant of the spec: for every resource,
`available + Σ allocated = total`. -/
def RM.conserved (rm : RM) : Prop :=
  ∀ r : String,
    dgetD rm.available_resources r 0 + sumAlloc rm.allocated_resources r =
      dgetD rm.total_resources r 0

/-- Well-formedness a Python `ResourceManager` maintains for free because
its maps are dicts: unique order ids and unique resource names in every
allocation record. -/
def RM.wf (rm : RM) : Prop :=
  (dkeys rm.allocated_resources).Nodup ∧
    ∀ p ∈ rm.allocated_resources, (dkeys p.2).Nodup

/-!  ## `order_manager.py` -/

/-- In-memory state of `OrderManager` (`self.rm` is the referenced
`ResourceManager`; `holding_orders` is initialised by the constructor and
never used afterwards). -/
structure OM where
  rm : RM
  orders : Dict String (Dict String Int)
  pending_requests : Dict String (Dict String Int)
  order_priorities : Dict String Int
  holding_orders : List String
deriving DecidableEq

/-- `OrderManager.create_order` (default priority 5). -/
def OM.create_order (om : OM) (order_id : String)
    (resource_request : Dict String Int) (priority : Int := 5) : OM :=
  { om with
      pending_requests := dset om.pending_requests order_id resource_request
      order_priorities := dset om.order_priorities order_id priority }

/-- The pending requests sorted by `order_priorities.get(id, 5)`
ascending; `sorted` is stable, as is `insertionSort`. -/
def OM.sortedPending (om : OM) : List (String × Dict String Int) :=
  om.pending_requests.insertionSort
    (fun a b => dgetD om.order_priorities a.1 5 ≤ dgetD om.order_priorities b.1 5)

/-- The single greedy pass of `OrderManager.process_orders`: walk the
sorted pending list once, threading the ledger, the allocated-orders map
and the `to_remove` accumulator. -/
def processPass :
    RM → Dict String (Dict String Int) → List String →
      List (String × Dict String Int) →
      Option (RM × Dict String (Dict String Int) × List String)
  | rm, orders, to_remove, [] => some (rm, orders, to_remove)
  | rm, orders, to_remove, (oid, req) :: rest =>
      if rm.can_allocate req then
        match rm.allocate oid req with
        | none => none
        | some rm' => processPass rm' (dset orders oid req) (to_remove ++ [oid]) rest
      else
        processPass rm orders to_remove rest

/-- `OrderManager.process_orders`: the greedy pass, then deletion of each
granted id from the pending map. -/
def OM.process_orders (om : OM) : Option OM :=
  (processPass om.rm om.orders [] om.sortedPending).map fun r =>
    { om with
        rm := r.1
        orders := r.2.1
        pending_requests :=
          r.2.2.foldl
            (fun pending oid =>
              if dmem pending oid then derase pending oid else pending)
            om.pending_requests }

/-- `OrderManager.release_order`: release the ledger resources, then
delete the order from every collection it appears in. -/
def OM.release_order (om : OM) (order_id : String) : Option OM :=
  (om.rm.release_resources order_id).map fun rm =>
    { om with
        rm := rm
        orders :=
          if dmem om.orders order_id then derase om.orders order_id else om.orders
        pending_requests :=
          if dmem om.pending_requests order_id then
            derase om.pending_requests order_id
          else om.pending_requests
        order_priorities :=
          if dmem om.order_priorities order_id then
            derase om.order_priorities order_id
          else om.order_priorities }

/-- `OrderManager.reschedule_order`: update the priority if the order
exists; never touches the ledger or the pending/allocated maps. -/
def OM.reschedule_order (om : OM) (order_id : String) (new_priority : Int) : OM :=
  if dmem om.order_priorities order_id then
    { om with order_priorities := dset om.order_priorities order_id new_priority }
  else om

/-- `OrderManager.cancel_order` delegates to `release_order`. -/
def OM.cancel_order (om : OM) (order_id : String) : Option OM :=
  om.release_order order_id

/-- The Coordinator mutations of claim C7. -/
inductive CoordOp
  | create (order_id : String) (request : Dict String Int) (priority : Int)
  | processOrders
  | release (order_id : String)
  | cancel (order_id : String)
  | reschedule (order_id : String) (priority : Int)

/-- One Coordinator mutation. -/
def OM.applyOp (om : OM) : CoordOp → Option OM
  | .create oid req prio => some (om.create_order oid req prio)
  | .processOrders => om.process_orders
  | .release oid => om.release_order oid
  | .cancel oid => om.cancel_order oid
  | .reschedule oid p => some (om.reschedule_order oid p)

/-- A sequence of Coordinator mutations. -/
def OM.applyOps (om : OM) : List CoordOp → Option OM
  | [] => some om
  | op :: ops => (om.applyOp op).bind fun om' => om'.applyOps ops

/-- The proviso the counterexample to claim C7 forces: a `create` must not
reuse an order id that is currently allocated (the source's duplicate-id
policy is silent overwrite of the pending entry only). -/
def CoordOp.safeFor (om : OM) : CoordOp → Bool
  | .create oid _ _ => dget om.orders oid = none
  | _ => true

/-- Every operation of the sequence satisfies `safeFor` at the state it is
applied in. -/
def OM.safeSeq (om : OM) : List CoordOp → Bool
  | [] => true
  | op :: ops =>
      CoordOp.safeFor om op &&
        match om.applyOp op with
        | none => true
        | some om' => om'.safeSeq ops

/-- The exclusive-state invariant: no order id is simultaneously in the
allocated-orders map and the pending-requests map. -/
def OM.exclusive (om : OM) : Prop :=
  ∀ oid : String,
    ¬ ((dget om.orders oid).isSome ∧ (dget om.pending_requests oid).isSome)

/-!  ## `deadlock_detector.py` -/

/-- Python `set.add` on a set modelled as a duplicate-free list. -/
def addNode (l : List String) (x : String) : List String :=
  if x ∈ l then l else l ++ [x]

/-- The body of the innermost loop of `build_wait_for_graph`: for
requester `a` and requested resource `res`, if the scanned holder entry
`h` is a different order holding a positive quantity of `res`, add the
edge `a → h`. -/
def wfgStep (a res : String) (wfg : Dict String (List String))
    (h : String × Dict String Int) : Dict String (List String) :=
  if h.1 ≠ a ∧ 0 < dgetD h.2 res 0 then
    dset wfg a (addNode (dgetD wfg a []) h.1)
  else wfg

/-- `DeadlockDetector.build_wait_for_graph`: nodes are the union of
allocation holders and requesters; for every requested resource and every
other holder of a positive quantity of it, add a requester→holder edge. -/
def build_wait_for_graph (allocations requests : Dict String (Dict String Int)) :
    Dict String (List String) :=
  let all_orders := (dkeys allocations ++ dkeys requests).dedup
  let wfg : Dict String (List String) := all_orders.map fun o => (o, [])
  requests.foldl
    (fun wfg p =>
      p.2.foldl (fun wfg q => allocations.foldl (wfgStep p.1 q.1) wfg) wfg)
    wfg

/-- The mutable state of the DFS in `detect_deadlocks`: the `visited` and
`stack` sets and the accumulated list of cycles (each cycle recorded as
the slice of the path from the back-edge target). -/
structure DfsSt where
  visited : List String
  stack : List String
  deadlocks : List (List String)
deriving DecidableEq

/-- The recursive `dfs` of `detect_deadlocks`, with explicit fuel (the
recursion depth is bounded by the number of nodes, so the fuel chosen by
`detect_deadlocks` is never exhausted). Returns the `True`/`False` result
together with the mutated path and state; the early `return True` leaves
the path and stack as they are, exactly as the source does. -/
def dfs (wfg : Dict String (List String)) :
    Nat → String → List String → DfsSt → Bool × List String × DfsSt
  | 0, _, path, st => (false, path, st)
  | Nat.succ fuel, node, path, st =>
      let st1 : DfsSt :=
        { visited := addNode st.visited node
          stack := addNode st.stack node
          deadlocks := st.deadlocks }
      let path1 := path ++ [node]
      let r :=
        (dgetD wfg node []).foldl
          (fun acc nb =>
            if acc.1 then acc
            else if nb ∈ acc.2.2.visited then
              if nb ∈ acc.2.2.stack then
                (true, acc.2.1,
                  { acc.2.2 with
                      deadlocks :=
                        acc.2.2.deadlocks ++
                          [acc.2.1.drop (List.indexOf nb acc.2.1)] })
              else acc
            else dfs wfg fuel nb acc.2.1 acc.2.2)
          (false, path1, st1)
      if r.1 then r
      else (false, r.2.1.dropLast, { r.2.2 with stack := r.2.2.stack.erase node })

/-- `DeadlockDetector.detect_deadlocks`: run the DFS from every
not-yet-visited node with a fresh path, keeping visited/stack/deadlocks
across roots (as the source does), and return the accumulated cycles. -/
def detect_deadlocks (wfg : Dict String (List String)) : List (List String) :=
  let fuel := wfg.length + (wfg.map fun p => p.2.length).sum + 1
  ((dkeys wfg).foldl
      (fun st node =>
        if node ∈ st.visited then st else (dfs wfg fuel node [] st).2.2)
      ⟨[], [], []⟩).deadlocks

/-- `DeadlockDetector.detect`: build the wait-for graph from the
allocation snapshot and the supplied requests, then detect cycles. -/
def detect (allocations requests : Dict String (Dict String Int)) :
    List (List String) :=
  detect_deadlocks (build_wait_for_graph allocations requests)

/-- One order's turn in the scan of `bankers_algorithm`: an unfinished
order finishes when every resource of its
`need = max_demand − allocation` is at most the corresponding `work`
(missing entries 0); finishing releases its whole current allocation into
`work` and marks progress. -/
def bankersStep (allocation : Dict String (Dict String Int))
    (acc : Dict String Int × Dict String Bool × Bool)
    (p : String × Dict String Int) :
    Dict String Int × Dict String Bool × Bool :=
  if !(dgetD acc.2.1 p.1 false) then
    if (p.2.map fun q => (q.1, q.2 - dgetD (dgetD allocation p.1 []) q.1 0)).all
        (fun q => q.2 ≤ dgetD acc.1 q.1 0) then
      ((dgetD allocation p.1 []).foldl
          (fun w q =>
            dset w q.1 (dgetD w q.1 0 + dgetD (dgetD allocation p.1 []) q.1 0))
          acc.1,
        dset acc.2.1 p.1 true, true)
    else acc
  else acc

/-- One full scan of the orders in `bankers_algorithm` (the body of one
`while True` iteration). -/
def bankersScan (allocation max_demand : Dict String (Dict String Int))
    (work : Dict String Int) (finish : Dict String Bool) :
    Dict String Int × Dict String Bool × Bool :=
  max_demand.foldl (bankersStep allocation) (work, finish, false)

/-- The `while True` loop of `bankers_algorithm`, with fuel: every
productive scan finishes at least one more order, so
`number of orders + 1` rounds always reach the unproductive scan. -/
def bankersLoop (allocation max_demand : Dict String (Dict String Int)) :
    Nat → Dict String Int → Dict String Bool → Dict String Int × Dict String Bool
  | 0, work, finish => (work, finish)
  | Nat.succ fuel, work, finish =>
      let r := bankersScan allocation max_demand work finish
      if r.2.2 then bankersLoop allocation max_demand fuel r.1 r.2.1
      else (work, finish)

/-- The fuel `bankers_algorithm` hands to the loop. -/
def bankersFuel (max_demand : Dict String (Dict String Int)) : Nat :=
  (dkeys max_demand).dedup.length + 1

/-- `k` unconditional repetitions of the full scan — the reference point
showing that the loop is exactly "repeatedly scan until no progress". -/
def scanSteps (allocation max_demand : Dict String (Dict String Int)) :
    Nat → Dict String Int × Dict String Bool → Dict String Int × Dict String Bool
  | 0, s => s
  | Nat.succ k, s =>
      scanSteps allocation max_demand k
        ((bankersScan allocation max_demand s.1 s.2).1,
          (bankersScan allocation max_demand s.1 s.2).2.1)

/-- `DeadlockDetector.bankers_algorithm`: `work = available.copy()`,
`finish = {order: False for order in max_demand}`, loop scans until no
progress, and the state is safe iff every order finished. -/
def bankers_algorithm (max_demand allocation : Dict String (Dict String Int))
    (available : Dict String Int) : Bool :=
  let finish0 : Dict String Bool := max_demand.map fun p => (p.1, false)
  let r := bankersLoop allocation max_demand (bankersFuel max_demand) available finish0
  r.2.all fun p => p.2

/-- Number of orders of `max_demand` not yet marked finished: the measure
each productive scan strictly decreases. -/
def unfinishedCount (max_demand : Dict String (Dict String Int))
    (finish : Dict String Bool) : Nat :=
  ((dkeys max_demand).dedup.filter fun o => !(dgetD finish o false)).length

/-!  ## Dictionary lemmas -/

@[simp] theorem dget_nil (k : α) : dget ([] : Dict α β) k = none := rfl

@[simp] theorem dget_cons (k' : α) (v : β) (rest : Dict α β) (k : α) :
    dget ((k', v) :: rest) k = if k' = k then some v else dget rest k := rfl

@[simp] theorem dgetD_nil (k : α) (dflt : β) : dgetD ([] : Dict α β) k dflt = dflt := rfl

theorem dgetD_cons (k' : α) (v : β) (rest : Dict α β) (k : α) (dflt : β) :
    dgetD ((k', v) :: rest) k dflt = if k' = k then v else dgetD rest k dflt := by
  by_cases h : k' = k <;> simp [dgetD, dget, h]

@[simp] theorem dget_dset_self (d : Dict α β) (k : α) (v : β) :
    dget (dset d k v) k = some v := by
  induction d with
  | nil => simp [dset, dget]
  | cons p rest ih =>
      obtain ⟨k', v'⟩ := p
      by_cases h : k' = k <;> simp [dset, dget, h, ih]

theorem dget_dset_ne (d : Dict α β) (k k' : α) (v : β) (h : k ≠ k') :
    dget (dset d k v) k' = dget d k' := by
  induction d with
  | nil => simp [dset, dget, h]
  | cons p rest ih =>
      obtain ⟨k₀, v₀⟩ := p
      by_cases h₀ : k₀ = k
      · subst h₀; simp [dset, dget, h]
      · simp [dset, dget, h₀, ih]

@[simp] theorem dget_derase_self (d : Dict α β) (k : α) :
    dget (derase d k) k = none := by
  induction d with
  | nil => simp [derase]
  | cons p rest ih =>
      obtain ⟨k₀, v₀⟩ := p
      by_cases h₀ : k₀ = k <;> simp [derase, dget, h₀, ih]

theorem dget_derase_ne (d : Dict α β) (k k' : α) (h : k ≠ k') :
    dget (derase d k) k' = dget d k' := by
  induction d with
  | nil => simp [derase]
  | cons p rest ih =>
      obtain ⟨k₀, v₀⟩ := p
      by_cases h₀ : k₀ = k
      · subst h₀
        have hne : ¬ (k₀ = k') := h
        simp [derase, dget, hne, ih]
      · simp [derase, dget, h₀, ih]

@[simp] theorem derase_derase (d : Dict α β) (k : α) :
    derase (derase d k) k = derase d k := by
  induction d with
  | nil => simp [derase]
  | cons p rest ih =>
      obtain ⟨k₀, v₀⟩ := p
      by_cases h₀ : k₀ = k <;> simp [derase, h₀, ih]

theorem dmem_iff (d : Dict α β) (k : α) : dmem d k = true ↔ (dget d k).isSome := by
  simp [dmem]

theorem dget_eq_none_of_not_mem_keys (d : Dict α β) (k : α)
    (h : k ∉ dkeys d) : dget d k = none := by
  induction d with
  | nil => rfl
  | cons p rest ih =>
      obtain ⟨k₀, v₀⟩ := p
      simp only [dkeys, List.map_cons, List.mem_cons] at h
      push_neg at h
      have h₀ : ¬ (k₀ = k) := fun hh => h.1 hh.symm
      simp [dget, h₀, ih (by simpa [dkeys] using h.2)]

theorem dget_isSome_of_mem_keys (d : Dict α β) (k : α)
    (h : k ∈ dkeys d) : (dget d k).isSome := by
  induction d with
  | nil => simp [dkeys] at h
  | cons p rest ih =>
      obtain ⟨k₀, v₀⟩ := p
      by_cases h₀ : k₀ = k
      · simp [dget, h₀]
      · simp only [dkeys, List.map_cons, List.mem_cons] at h
        rcases h with h | h
        · exact absurd h.symm h₀
        · simpa [dget, h₀] using ih (by simpa [dkeys] using h)

theorem mem_keys_of_dget_isSome (d : Dict α β) (k : α)
    (h : (dget d k).isSome) : k ∈ dkeys d := by
  by_contra hk
  rw [dget_eq_none_of_not_mem_keys d k hk] at h
  simp at h

theorem dgetD_dset_self (d : Dict α β) (k : α) (v : β) (dflt : β) :
    dgetD (dset d k v) k dflt = v := by
  simp [dgetD]

theorem dgetD_dset_ne (d : Dict α β) (k k' : α) (v : β) (dflt : β) (h : k ≠ k') :
    dgetD (dset d k v) k' dflt = dgetD d k' dflt := by
  simp [dgetD, dget_dset_ne d k k' v h]

theorem dset_eq_append (d : Dict α β) (k : α) (v : β) (h : k ∉ dkeys d) :
    dset d k v = d ++ [(k, v)] := by
  induction d with
  | nil => rfl
  | cons p rest ih =>
      obtain ⟨k₀, v₀⟩ := p
      simp only [dkeys, List.map_cons, List.mem_cons] at h
      push_neg at h
      have h₀ : ¬ (k₀ = k) := fun hh => h.1 hh.symm
      simp [dset, h₀, ih (by simpa [dkeys] using h.2)]

theorem derase_sublist (d : Dict α β) (k : α) : (derase d k).Sublist d := by
  induction d with
  | nil => simp [derase]
  | cons p rest ih =>
      obtain ⟨k₀, v₀⟩ := p
      by_cases h₀ : k₀ = k
      · simpa [derase, h₀] using ih.cons (k₀, v₀)
      · simpa [derase, h₀] using ih.cons₂ (k₀, v₀)

theorem derase_eq_of_not_mem (d : Dict α β) (k : α) (h : k ∉ dkeys d) :
    derase d k = d := by
  induction d with
  | nil => rfl
  | cons p rest ih =>
      obtain ⟨k₀, v₀⟩ := p
      simp only [dkeys, List.map_cons, List.mem_cons] at h
      push_neg at h
      have h₀ : ¬ (k₀ = k) := fun hh => h.1 hh.symm
      simp [derase, h₀, ih (by simpa [dkeys] using h.2)]

theorem dget_dset_isSome_iff (d : Dict α β) (k k' : α) (v : β) :
    (dget (dset d k v) k').isSome ↔ (k = k' ∨ (dget d k').isSome) := by
  by_cases h : k = k'
  · subst h; simp
  · simp [dget_dset_ne d k k' v h, h]

theorem dkeys_dset_of_mem (d : Dict α β) (k : α) (v : β)
    (h : (dget d k).isSome) : dkeys (dset d k v) = dkeys d := by
  induction d with
  | nil => simp [dget] at h
  | cons p rest ih =>
      obtain ⟨k₀, v₀⟩ := p
      by_cases h₀ : k₀ = k
      · simp [dset, dkeys, h₀]
      · simp only [dget_cons, h₀, if_false] at h
        have := ih h
        simp only [dkeys, List.map] at this
        simp [dset, dkeys, h₀, this]

theorem dget_dset_isSome_eq (d : Dict α β) (k : α) (v : β)
    (hk : (dget d k).isSome) (k' : α) :
    (dget (dset d k v) k').isSome = (dget d k').isSome := by
  by_cases h : k = k'
  · subst h; simp [hk]
  · simp [dget_dset_ne d k k' v h]

/-!  ## `updEntries` lemmas -/

theorem updEntries_isSome_iff (op : Int → Int → Int) (avail : Dict String Int)
    (entries : List (String × Int)) :
    (updEntries op avail entries).isSome ↔
      ∀ p ∈ entries, (dget avail p.1).isSome := by
  induction entries generalizing avail with
  | nil => simp [updEntries]
  | cons p rest ih =>
      obtain ⟨res, qty⟩ := p
      cases hres : dget avail res with
      | none =>
          simp only [updEntries, hres]
          constructor
          · intro h; simp at h
          · intro h
            have := h (res, qty) (List.mem_cons_self _ _)
            simp [hres] at this
      | some v =>
          simp only [updEntries, hres, ih]
          constructor
          · intro h q hq
            rcases List.mem_cons.mp hq with h' | hq'
            · subst h'; simp [hres]
            · have := h q hq'
              rwa [dget_dset_isSome_eq avail res _ (by simp [hres]) q.1] at this
          · intro h q hq
            rw [dget_dset_isSome_eq avail res _ (by simp [hres]) q.1]
            exact h q (List.mem_cons_of_mem _ hq)

theorem updEntries_dkeys (op : Int → Int → Int) (avail avail' : Dict String Int)
    (entries : List (String × Int))
    (h : updEntries op avail entries = some avail') :
    dkeys avail' = dkeys avail := by
  induction entries generalizing avail with
  | nil => simp [updEntries] at h; subst h; rfl
  | cons p rest ih =>
      obtain ⟨res, qty⟩ := p
      cases hres : dget avail res with
      | none => simp [updEntries, hres] at h
      | some v =>
          simp only [updEntries, hres] at h
          rw [ih _ h, dkeys_dset_of_mem _ _ _ (by simp [hres])]

theorem updEntries_dgetD (op : Int → Int → Int) (avail avail' : Dict String Int)
    (entries : List (String × Int)) (hnd : (dkeys entries).Nodup)
    (h : updEntries op avail entries = some avail') (r : String) :
    dgetD avail' r 0 =
      if r ∈ dkeys entries then op (dgetD avail r 0) (dgetD entries r 0)
      else dgetD avail r 0 := by
  induction entries generalizing avail with
  | nil => simp [updEntries] at h; subst h; simp [dkeys]
  | cons p rest ih =>
      obtain ⟨res, qty⟩ := p
      cases hres : dget avail res with
      | none => simp [updEntries, hres] at h
      | some v =>
          simp only [updEntries, hres] at h
          simp only [dkeys, List.map_cons, List.nodup_cons] at hnd
          have ih' := ih (dset avail res (op v qty)) hnd.2 h
          by_cases hr : res = r
          · subst hr
            have hnr : res ∉ dkeys rest := hnd.1
            rw [ih']
            simp only [dkeys] at hnr
            simp [hnr, dkeys, dgetD_dset_self, dgetD_cons, dgetD, hres]
          · rw [ih']
            have heq : dgetD (dset avail res (op v qty)) r 0 = dgetD avail r 0 :=
              dgetD_dset_ne _ _ _ _ _ hr
            have hrr : ¬ (r = res) := fun hh => hr hh.symm
            have hcons : (r ∈ dkeys ((res, qty) :: rest)) = (r ∈ dkeys rest) := by
              simp [dkeys, hrr]
            have hget : dgetD ((res, qty) :: rest) r 0 = dgetD rest r 0 := by
              rw [dgetD_cons, if_neg hr]
            simp only [hcons, hget, heq]

theorem dgetD_eq_zero_of_not_mem (d : Dict String Int) (r : String)
    (h : r ∉ dkeys d) : dgetD d r 0 = 0 := by
  simp [dgetD, dget_eq_none_of_not_mem_keys d r h]

theorem updEntries_sub_dgetD (avail avail' : Dict String Int)
    (entries : List (String × Int)) (hnd : (dkeys entries).Nodup)
    (h : updEntries (fun v q => v - q) avail entries = some avail') (r : String) :
    dgetD avail' r 0 = dgetD avail r 0 - dgetD entries r 0 := by
  rw [updEntries_dgetD _ _ _ _ hnd h r]
  by_cases hmem : r ∈ dkeys entries
  · simp [hmem]
  · simp [hmem, dgetD_eq_zero_of_not_mem entries r hmem]

theorem updEntries_add_dgetD (avail avail' : Dict String Int)
    (entries : List (String × Int)) (hnd : (dkeys entries).Nodup)
    (h : updEntries (fun v q => v + q) avail entries = some avail') (r : String) :
    dgetD avail' r 0 = dgetD avail r 0 + dgetD entries r 0 := by
  rw [updEntries_dgetD _ _ _ _ hnd h r]
  by_cases hmem : r ∈ dkeys entries
  · simp [hmem]
  · simp [hmem, dgetD_eq_zero_of_not_mem entries r hmem]

/-!  ## `ResourceManager` lemmas -/

theorem can_allocate_iff (rm : RM) (req : Dict String Int) :
    rm.can_allocate req = true ↔
      ∀ p ∈ req, p.2 ≤ dgetD rm.available_resources p.1 0 := by
  simp [RM.can_allocate, List.all_eq_true, not_lt]

theorem avail_keys_present (rm : RM) (req : Dict String Int)
    (hcan : rm.can_allocate req = true) (hpos : ∀ p ∈ req, 0 < p.2) :
    ∀ p ∈ req, (dget rm.available_resources p.1).isSome := by
  intro p hp
  have hle := (can_allocate_iff rm req).mp hcan p hp
  cases hget : dget rm.available_resources p.1 with
  | none =>
      exfalso
      have : dgetD rm.available_resources p.1 0 = 0 := by simp [dgetD, hget]
      rw [this] at hle
      exact absurd (lt_of_lt_of_le (hpos p hp) hle) (lt_irrefl 0)
  | some v => simp

theorem request_success (rm : RM) (oid : String) (req : Dict String Int)
    (hnd : (dkeys req).Nodup)
    (hcan : rm.can_allocate req = true)
    (hpos : ∀ p ∈ req, 0 < p.2) :
    ∃ rm', rm.request_resources oid req = some (true, rm')
      ∧ (∀ r, dgetD rm'.available_resources r 0 =
              dgetD rm.available_resources r 0 - dgetD req r 0)
      ∧ rm'.allocated_resources = dset rm.allocated_resources oid req
      ∧ rm'.total_resources = rm.total_resources := by
  have hsome : (updEntries (fun v q => v - q) rm.available_resources req).isSome :=
    (updEntries_isSome_iff _ _ _).mpr (avail_keys_present rm req hcan hpos)
  obtain ⟨avail', havail⟩ := Option.isSome_iff_exists.mp hsome
  refine ⟨{ rm with
              available_resources := avail'
              allocated_resources := dset rm.allocated_resources oid req },
    ?_, ?_, rfl, rfl⟩
  · simp [RM.request_resources, RM.allocate, hcan, havail]
  · intro r
    exact updEntries_sub_dgetD _ _ _ hnd havail r

theorem request_failure (rm : RM) (oid : String) (req : Dict String Int)
    (hcan : rm.can_allocate req = false) :
    rm.request_resources oid req = some (false, rm) := by
  simp [RM.request_resources, hcan]

theorem mem_of_dget_eq_some (d : Dict α β) (k : α) (v : β)
    (h : dget d k = some v) : (k, v) ∈ d := by
  induction d with
  | nil => simp [dget] at h
  | cons p rest ih =>
      obtain ⟨k₀, v₀⟩ := p
      by_cases h₀ : k₀ = k
      · subst h₀
        simp only [dget_cons, if_pos rfl] at h
        injection h with h
        subst h
        exact List.mem_cons_self _ _
      · simp only [dget_cons, h₀, if_false] at h
        exact List.mem_cons_of_mem _ (ih h)

theorem sumAlloc_dset_fresh (allocated : Dict String (Dict String Int))
    (oid : String) (req : Dict String Int) (r : String)
    (h : oid ∉ dkeys allocated) :
    sumAlloc (dset allocated oid req) r = sumAlloc allocated r + dgetD req r 0 := by
  rw [dset_eq_append _ _ _ h]
  simp [sumAlloc]

theorem sumAlloc_derase (allocated : Dict String (Dict String Int))
    (oid : String) (alloc : Dict String Int)
    (hnd : (dkeys allocated).Nodup) (hget : dget allocated oid = some alloc)
    (r : String) :
    sumAlloc (derase allocated oid) r = sumAlloc allocated r - dgetD alloc r 0 := by
  induction allocated with
  | nil => simp [dget] at hget
  | cons p rest ih =>
      obtain ⟨k₀, a₀⟩ := p
      simp only [dkeys, List.map_cons, List.nodup_cons] at hnd
      by_cases h₀ : k₀ = oid
      · subst h₀
        simp only [dget_cons, if_pos rfl] at hget
        injection hget with hgeq
        subst hgeq
        have hno : k₀ ∉ dkeys rest := by simpa [dkeys] using hnd.1
        have hd : derase ((k₀, a₀) :: rest) k₀ = rest := by
          simp [derase, derase_eq_of_not_mem rest k₀ hno]
        rw [hd]
        simp only [sumAlloc, List.map_cons, List.sum_cons]
        ring
      · simp only [dget_cons, h₀, if_false] at hget
        simp only [derase, h₀, if_false]
        simp only [sumAlloc, List.map_cons, List.sum_cons]
        have := ih hnd.2 hget
        simp only [sumAlloc] at this
        rw [this]
        ring

theorem wf_allocate (rm rm' : RM) (oid : String) (req : Dict String Int)
    (hw : rm.wf) (hfresh : dget rm.allocated_resources oid = none)
    (hnd : (dkeys req).Nodup) (h : rm.allocate oid req = some rm') :
    rm'.wf := by
  cases hu : updEntries (fun v q => v - q) rm.available_resources req with
  | none => simp [RM.allocate, hu] at h
  | some avail' =>
      simp only [RM.allocate, hu, Option.map_some'] at h
      injection h with h
      subst h
      have hno : oid ∉ dkeys rm.allocated_resources := by
        intro hmem
        have := dget_isSome_of_mem_keys _ _ hmem
        rw [hfresh] at this
        simp at this
      constructor
      · rw [dset_eq_append _ _ _ hno]
        simp only [dkeys, List.map_append, List.map_cons, List.map_nil]
        rw [List.nodup_append]
        refine ⟨hw.1, List.nodup_singleton _, ?_⟩
        intro x hx hx2
        simp only [List.mem_singleton] at hx2
        subst hx2
        exact hno (by simpa [dkeys] using hx)
      · intro p hp
        rw [dset_eq_append _ _ _ hno] at hp
        rcases List.mem_append.mp hp with hp | hp
        · exact hw.2 p hp
        · simp only [List.mem_singleton] at hp
          subst hp
          exact hnd

theorem conserved_allocate (rm rm' : RM) (oid : String) (req : Dict String Int)
    (hc : rm.conserved)
    (hfresh : dget rm.allocated_resources oid = none)
    (hnd : (dkeys req).Nodup) (h : rm.allocate oid req = some rm') :
    rm'.conserved := by
  cases hu : updEntries (fun v q => v - q) rm.available_resources req with
  | none => simp [RM.allocate, hu] at h
  | some avail' =>
      simp only [RM.allocate, hu, Option.map_some'] at h
      injection h with h
      subst h
      have hno : oid ∉ dkeys rm.allocated_resources := by
        intro hmem
        have := dget_isSome_of_mem_keys _ _ hmem
        rw [hfresh] at this
        simp at this
      intro r
      have h1 := updEntries_sub_dgetD _ _ _ hnd hu r
      have h2 := sumAlloc_dset_fresh rm.allocated_resources oid req r hno
      simp only [h1, h2]
      have := hc r
      linarith

theorem wf_release (rm rm' : RM) (oid : String)
    (hw : rm.wf) (h : rm.release_resources oid = some rm') : rm'.wf := by
  cases hget : dget rm.allocated_resources oid with
  | none =>
      simp only [RM.release_resources, hget] at h
      injection h with h
      subst h
      exact hw
  | some alloc =>
      simp only [RM.release_resources, hget] at h
      cases hu : updEntries (fun v q => v + q) rm.available_resources alloc with
      | none => rw [hu] at h; simp at h
      | some avail' =>
          rw [hu] at h
          simp only [Option.map_some'] at h
          injection h with h
          subst h
          constructor
          · exact ((derase_sublist _ _).map Prod.fst).nodup hw.1
          · intro p hp
            exact hw.2 p ((derase_sublist _ _).subset hp)

theorem conserved_release (rm rm' : RM) (oid : String)
    (hc : rm.conserved) (hw : rm.wf)
    (h : rm.release_resources oid = some rm') : rm'.conserved := by
  cases hget : dget rm.allocated_resources oid with
  | none =>
      simp only [RM.release_resources, hget] at h
      injection h with h
      subst h
      exact hc
  | some alloc =>
      simp only [RM.release_resources, hget] at h
      cases hu : updEntries (fun v q => v + q) rm.available_resources alloc with
      | none => rw [hu] at h; simp at h
      | some avail' =>
          rw [hu] at h
          simp only [Option.map_some'] at h
          injection h with h
          subst h
          intro r
          have hndalloc : (dkeys alloc).Nodup :=
            hw.2 (oid, alloc) (mem_of_dget_eq_some _ _ _ hget)
          have h1 := updEntries_add_dgetD _ _ _ hndalloc hu r
          have h2 := sumAlloc_derase rm.allocated_resources oid alloc hw.1 hget r
          simp only [h1, h2]
          have := hc r
          linarith

theorem conserved_add_virtual (rm : RM) (adds : Dict String Int)
    (hc : rm.conserved) : (rm.add_virtual_resources adds).conserved := by
  unfold RM.add_virtual_resources
  induction adds generalizing rm with
  | nil => simpa using hc
  | cons p rest ih =>
      simp only [List.foldl_cons]
      apply ih
      intro r
      by_cases h : p.1 = r
      · subst h
        simp only [dgetD_dset_self]
        have := hc p.1
        linarith
      · simp only [dgetD_dset_ne _ _ _ _ _ h]
        exact hc r

theorem wf_add_virtual (rm : RM) (adds : Dict String Int)
    (hw : rm.wf) : (rm.add_virtual_resources adds).wf := by
  unfold RM.add_virtual_resources
  induction adds generalizing rm with
  | nil => simpa using hw
  | cons p rest ih =>
      simp only [List.foldl_cons]
      exact ih _ hw

/-!  ## Claim theorems for the Resource Ledger -/

/-- C9: `preempt_resources` produces exactly the same resulting ledger
state as `release_resources` on every ledger state and order id — the two
method bodies perform the identical in-memory mutation. -/
theorem preempt_eq_release :
    ∀ (rm : RM) (order_id : String),
      rm.preempt_resources order_id = rm.release_resources order_id :=
  fun _ _ => rfl

/-- C5: for a request with (data-model) positive quantities over distinct
resource names, `request_resources` succeeds iff every requested resource
has `available.get(r, 0) ≥ qty` (so an unknown resource name, read as
available 0, fails any positive request); on success it returns `True`,
decrements `available` by exactly the requested quantities and records the
full request as the order's allocation, leaving other orders and `total`
unchanged; otherwise it returns `False` and leaves the state unchanged. -/
theorem request_resources_contract (rm : RM) (oid : String)
    (req : Dict String Int)
    (hnd : (dkeys req).Nodup) (hpos : ∀ p ∈ req, 0 < p.2) :
    (rm.can_allocate req = true ↔
        ∀ p ∈ req, p.2 ≤ dgetD rm.available_resources p.1 0)
    ∧ (rm.can_allocate req = true →
        ∃ rm', rm.request_resources oid req = some (true, rm')
          ∧ (∀ r, dgetD rm'.available_resources r 0 =
                dgetD rm.available_resources r 0 - dgetD req r 0)
          ∧ dget rm'.allocated_resources oid = some req
          ∧ (∀ o, o ≠ oid →
                dget rm'.allocated_resources o = dget rm.allocated_resources o)
          ∧ rm'.total_resources = rm.total_resources)
    ∧ (rm.can_allocate req = false →
        rm.request_resources oid req = some (false, rm)) := by
  refine ⟨can_allocate_iff rm req, ?_, request_failure rm oid req⟩
  intro hcan
  obtain ⟨rm', h1, h2, h3, h4⟩ := request_success rm oid req hnd hcan hpos
  refine ⟨rm', h1, h2, ?_, ?_, h4⟩
  · rw [h3]; exact dget_dset_self _ _ _
  · intro o ho
    rw [h3]
    exact dget_dset_ne _ _ _ _ fun hh => ho hh.symm

/-- Witness for C5 at `available = {Oven: 1}`, request `{Oven: 1}`. -/
theorem request_resources_contract_witness :
    ((dkeys [("Oven", (1 : Int))]).Nodup ∧ (∀ p ∈ [("Oven", (1 : Int))], 0 < p.2))
    ∧ ((RM.can_allocate ⟨[("Oven", 1)], [("Oven", 1)], []⟩ [("Oven", 1)] = true ↔
          ∀ p ∈ [("Oven", (1 : Int))],
            p.2 ≤ dgetD (⟨[("Oven", 1)], [("Oven", 1)], []⟩ : RM).available_resources p.1 0)
        ∧ (RM.can_allocate ⟨[("Oven", 1)], [("Oven", 1)], []⟩ [("Oven", 1)] = true →
            ∃ rm', RM.request_resources ⟨[("Oven", 1)], [("Oven", 1)], []⟩ "A" [("Oven", 1)]
                = some (true, rm')
              ∧ (∀ r, dgetD rm'.available_resources r 0 =
                    dgetD (⟨[("Oven", 1)], [("Oven", 1)], []⟩ : RM).available_resources r 0
                      - dgetD [("Oven", (1 : Int))] r 0)
              ∧ dget rm'.allocated_resources "A" = some [("Oven", 1)]
              ∧ (∀ o, o ≠ "A" →
                    dget rm'.allocated_resources o =
                      dget (⟨[("Oven", 1)], [("Oven", 1)], []⟩ : RM).allocated_resources o)
              ∧ rm'.total_resources = (⟨[("Oven", 1)], [("Oven", 1)], []⟩ : RM).total_resources)
        ∧ (RM.can_allocate ⟨[("Oven", 1)], [("Oven", 1)], []⟩ [("Oven", 1)] = false →
            RM.request_resources ⟨[("Oven", 1)], [("Oven", 1)], []⟩ "A" [("Oven", 1)]
              = some (false, ⟨[("Oven", 1)], [("Oven", 1)], []⟩))) :=
  ⟨⟨by decide, by decide⟩,
    request_resources_contract ⟨[("Oven", 1)], [("Oven", 1)], []⟩ "A" [("Oven", 1)]
      (by decide) (by decide)⟩

/-- C10: when `request_resources` succeeds for an order that already holds
an allocation, the new request overwrites the allocation record outright,
`available` is decremented only by the new request, and the previously
held quantities are never added back. -/
theorem rerequest_replaces_allocation (rm : RM) (oid : String)
    (req old : Dict String Int)
    (hheld : dget rm.allocated_resources oid = some old)
    (hnd : (dkeys req).Nodup) (hpos : ∀ p ∈ req, 0 < p.2)
    (hcan : rm.can_allocate req = true) :
    ∃ rm', rm.request_resources oid req = some (true, rm')
      ∧ dget rm'.allocated_resources oid = some req
      ∧ (∀ r, dgetD rm'.available_resources r 0 =
            dgetD rm.available_resources r 0 - dgetD req r 0)
      ∧ rm'.total_resources = rm.total_resources := by
  obtain ⟨rm', h1, h2, h3, h4⟩ := request_success rm oid req hnd hcan hpos
  refine ⟨rm', h1, ?_, h2, h4⟩
  rw [h3]
  exact dget_dset_self _ _ _

/-- Witness for C10: order `A` holds `{R: 2}` out of `total = {R: 5}`,
re-requests `{R: 1}`; the old 2 units of `R` vanish from the books. -/
theorem rerequest_replaces_allocation_witness :
    (dget (⟨[("R", 5)], [("R", 3)], [("A", [("R", 2)])]⟩ : RM).allocated_resources "A"
        = some [("R", 2)]
      ∧ (dkeys [("R", (1 : Int))]).Nodup
      ∧ (∀ p ∈ [("R", (1 : Int))], 0 < p.2)
      ∧ RM.can_allocate ⟨[("R", 5)], [("R", 3)], [("A", [("R", 2)])]⟩ [("R", 1)] = true)
    ∧ (∃ rm', RM.request_resources ⟨[("R", 5)], [("R", 3)], [("A", [("R", 2)])]⟩ "A" [("R", 1)]
          = some (true, rm')
        ∧ dget rm'.allocated_resources "A" = some [("R", 1)]
        ∧ (∀ r, dgetD rm'.available_resources r 0 =
              dgetD (⟨[("R", 5)], [("R", 3)], [("A", [("R", 2)])]⟩ : RM).available_resources r 0
                - dgetD [("R", (1 : Int))] r 0)
        ∧ rm'.total_resources
            = (⟨[("R", 5)], [("R", 3)], [("A", [("R", 2)])]⟩ : RM).total_resources) :=
  ⟨⟨by decide, by decide, by decide, by decide⟩,
    rerequest_replaces_allocation ⟨[("R", 5)], [("R", 3)], [("A", [("R", 2)])]⟩ "A"
      [("R", 1)] [("R", 2)] (by decide) (by decide) (by decide) (by decide)⟩

/-- Counterexample to C1 as stated: from a conserved state in which order
`A` already holds `{R: 2}`, the Ledger mutation
`request_resources("A", {R: 1})` succeeds and breaks the conservation
invariant (available 2 + allocated 1 ≠ total 5): the overwritten holding
is never returned to `available`. -/
theorem conservation_counterexample :
    RM.conserved ⟨[("R", 5)], [("R", 3)], [("A", [("R", 2)])]⟩
    ∧ RM.request_resources ⟨[("R", 5)], [("R", 3)], [("A", [("R", 2)])]⟩ "A" [("R", 1)]
        = some (true, ⟨[("R", 5)], [("R", 2)], [("A", [("R", 1)])]⟩)
    ∧ ¬ RM.conserved ⟨[("R", 5)], [("R", 2)], [("A", [("R", 1)])]⟩ := by
  refine ⟨?_, rfl, ?_⟩
  · intro r
    by_cases h : "R" = r
    · subst h; decide
    · simp [RM.conserved, sumAlloc, dgetD, dget, h]
  · intro hcon
    have := hcon "R"
    revert this
    decide

/-!  ## `OrderManager` lemmas -/

theorem not_mem_keys_of_dmem_false (d : Dict α β) (k : α)
    (h : dmem d k = false) : k ∉ dkeys d := by
  intro hmem
  have := dget_isSome_of_mem_keys d k hmem
  simp [dmem, this] at h

theorem guarded_derase_eq (d : Dict α β) (k : α) :
    (if dmem d k then derase d k else d) = derase d k := by
  by_cases h : dmem d k
  · simp [h]
  · have h' : dmem d k = false := by simpa using h
    simp only [h', Bool.false_eq_true, if_false]
    exact (derase_eq_of_not_mem d k (not_mem_keys_of_dmem_false d k h')).symm

theorem foldl_derase_dget (ids : List String)
    (pending : Dict String (Dict String Int)) (o : String) :
    dget (ids.foldl (fun p oid => derase p oid) pending) o
      = if o ∈ ids then none else dget pending o := by
  induction ids generalizing pending with
  | nil => simp
  | cons i rest ih =>
      simp only [List.foldl_cons]
      rw [ih]
      by_cases hio : o ∈ rest
      · simp [hio]
      · by_cases hoi : i = o
        · subst hoi
          simp [hio, dget_derase_self]
        · have hne : ¬ (o = i) := fun hh => hoi hh.symm
          simp [hio, dget_derase_ne _ _ _ hoi, List.mem_cons, hne]

theorem foldl_guarded_derase_dget (ids : List String)
    (pending : Dict String (Dict String Int)) (o : String) :
    dget (ids.foldl
        (fun p oid => if dmem p oid then derase p oid else p) pending) o
      = if o ∈ ids then none else dget pending o := by
  simp only [guarded_derase_eq]
  exact foldl_derase_dget ids pending o

theorem release_resources_clears (rm rm' : RM) (oid : String)
    (h : rm.release_resources oid = some rm') :
    dget rm'.allocated_resources oid = none := by
  cases hget : dget rm.allocated_resources oid with
  | none =>
      simp only [RM.release_resources, hget] at h
      injection h with h
      subst h
      exact hget
  | some alloc =>
      simp only [RM.release_resources, hget] at h
      cases hu : updEntries (fun v q => v + q) rm.available_resources alloc with
      | none => rw [hu] at h; simp at h
      | some avail' =>
          rw [hu] at h
          simp only [Option.map_some'] at h
          injection h with h
          subst h
          exact dget_derase_self _ _

theorem release_order_clears (om om' : OM) (oid : String)
    (h : om.release_order oid = some om') :
    dget om'.rm.allocated_resources oid = none
    ∧ dget om'.orders oid = none
    ∧ dget om'.pending_requests oid = none
    ∧ dget om'.order_priorities oid = none := by
  cases hr : om.rm.release_resources oid with
  | none => simp [OM.release_order, hr] at h
  | some rm' =>
      simp only [OM.release_order, hr, Option.map_some'] at h
      injection h with h
      subst h
      simp only [guarded_derase_eq]
      exact ⟨release_resources_clears _ _ _ hr, dget_derase_self _ _,
        dget_derase_self _ _, dget_derase_self _ _⟩

theorem processPass_spec (l : List (String × Dict String Int)) :
    ∀ rm orders rem rm' orders' rem',
      processPass rm orders rem l = some (rm', orders', rem') →
      ∃ news : List String,
        rem' = rem ++ news
        ∧ (∀ o ∈ news, o ∈ l.map Prod.fst)
        ∧ (∀ o, o ∉ news → dget orders' o = dget orders o)
        ∧ (∀ o ∈ news, ∃ req, (o, req) ∈ l ∧ dget orders' o = some req) := by
  induction l with
  | nil =>
      intro rm orders rem rm' orders' rem' h
      simp only [processPass, Option.some_inj, Prod.mk.injEq] at h
      obtain ⟨h1, h2, h3⟩ := h
      subst h1; subst h2; subst h3
      exact ⟨[], by simp, by simp, fun o _ => rfl, by simp⟩
  | cons hd rest ih =>
      obtain ⟨oid, req⟩ := hd
      intro rm orders rem rm' orders' rem' h
      simp only [processPass] at h
      by_cases hcan : rm.can_allocate req
      · rw [if_pos hcan] at h
        cases halloc : rm.allocate oid req with
        | none => rw [halloc] at h; exact absurd h (by simp)
        | some rm₁ =>
            rw [halloc] at h
            obtain ⟨news, hrem, hsub, hunch, hgr⟩ :=
              ih rm₁ (dset orders oid req) (rem ++ [oid]) rm' orders' rem' h
            refine ⟨oid :: news, ?_, ?_, ?_, ?_⟩
            · rw [hrem, List.append_assoc]
              rfl
            · intro o ho
              rcases List.mem_cons.mp ho with ho | ho
              · subst ho; simp
              · exact List.mem_cons_of_mem _ (hsub o ho)
            · intro o ho
              have hne : o ≠ oid := fun hh => ho (hh ▸ List.mem_cons_self _ _)
              have hnn : o ∉ news := fun hh => ho (List.mem_cons_of_mem _ hh)
              rw [hunch o hnn]
              exact dget_dset_ne _ _ _ _ fun hh => hne hh.symm
            · intro o ho
              rcases List.mem_cons.mp ho with ho | ho
              · subst ho
                by_cases hmem : o ∈ news
                · obtain ⟨req', hreq', hget'⟩ := hgr o hmem
                  exact ⟨req', List.mem_cons_of_mem _ hreq', hget'⟩
                · refine ⟨req, List.mem_cons_self _ _, ?_⟩
                  rw [hunch o hmem]
                  exact dget_dset_self _ _ _
              · obtain ⟨req', hreq', hget'⟩ := hgr o ho
                exact ⟨req', List.mem_cons_of_mem _ hreq', hget'⟩
      · rw [if_neg hcan] at h
        obtain ⟨news, hrem, hsub, hunch, hgr⟩ :=
          ih rm orders rem rm' orders' rem' h
        refine ⟨news, hrem, ?_, hunch, ?_⟩
        · exact fun o ho => List.mem_cons_of_mem _ (hsub o ho)
        · intro o ho
          obtain ⟨req', hreq', hget'⟩ := hgr o ho
          exact ⟨req', List.mem_cons_of_mem _ hreq', hget'⟩

theorem exclusive_applyOp (om om' : OM) (op : CoordOp)
    (hex : om.exclusive) (hsafe : CoordOp.safeFor om op = true)
    (h : om.applyOp op = some om') : om'.exclusive := by
  cases op with
  | create oid req prio =>
      simp only [OM.applyOp, Option.some_inj] at h
      subst h
      simp only [CoordOp.safeFor, decide_eq_true_eq] at hsafe
      intro o ho
      obtain ⟨ho1, ho2⟩ := ho
      by_cases hoo : oid = o
      · subst hoo
        simp only [OM.create_order] at ho1
        rw [hsafe] at ho1
        simp at ho1
      · simp only [OM.create_order] at ho2
        rw [dget_dset_ne _ _ _ _ hoo] at ho2
        exact hex o ⟨ho1, ho2⟩
  | processOrders =>
      simp only [OM.applyOp] at h
      cases hp : processPass om.rm om.orders [] om.sortedPending with
      | none => simp [OM.process_orders, hp] at h
      | some r =>
          obtain ⟨rm', orders', rem'⟩ := r
          simp only [OM.process_orders, hp, Option.map_some'] at h
          injection h with h
          subst h
          obtain ⟨news, hrem, _, hunch, _⟩ :=
            processPass_spec _ _ _ _ _ _ _ hp
          simp only [List.nil_append] at hrem
          subst hrem
          intro o ho
          obtain ⟨ho1, ho2⟩ := ho
          simp only at ho1 ho2
          rw [foldl_guarded_derase_dget] at ho2
          by_cases hmem : o ∈ rem'
          · rw [if_pos hmem] at ho2
            simp at ho2
          · rw [if_neg hmem] at ho2
            rw [hunch o hmem] at ho1
            exact hex o ⟨ho1, ho2⟩
  | release oid =>
      simp only [OM.applyOp] at h
      cases hr : om.rm.release_resources oid with
      | none => simp [OM.release_order, hr] at h
      | some rm' =>
          simp only [OM.release_order, hr, Option.map_some'] at h
          injection h with h
          subst h
          intro o ho
          obtain ⟨ho1, ho2⟩ := ho
          simp only [guarded_derase_eq] at ho1 ho2
          by_cases hoo : oid = o
          · subst hoo
            rw [dget_derase_self] at ho1
            simp at ho1
          · rw [dget_derase_ne _ _ _ hoo] at ho1
            rw [dget_derase_ne _ _ _ hoo] at ho2
            exact hex o ⟨ho1, ho2⟩
  | cancel oid =>
      simp only [OM.applyOp, OM.cancel_order] at h
      cases hr : om.rm.release_resources oid with
      | none => simp [OM.release_order, hr] at h
      | some rm' =>
          simp only [OM.release_order, hr, Option.map_some'] at h
          injection h with h
          subst h
          intro o ho
          obtain ⟨ho1, ho2⟩ := ho
          simp only [guarded_derase_eq] at ho1 ho2
          by_cases hoo : oid = o
          · subst hoo
            rw [dget_derase_self] at ho1
            simp at ho1
          · rw [dget_derase_ne _ _ _ hoo] at ho1
            rw [dget_derase_ne _ _ _ hoo] at ho2
            exact hex o ⟨ho1, ho2⟩
  | reschedule oid prio =>
      simp only [OM.applyOp, Option.some_inj] at h
      subst h
      unfold OM.reschedule_order
      by_cases hm : dmem om.order_priorities oid
      · simp only [hm, if_true]
        intro o ho
        exact hex o ho
      · simp only [hm, Bool.false_eq_true, if_false]
        exact hex

theorem exclusive_applyOps (ops : List CoordOp) :
    ∀ om om' : OM, om.exclusive → om.safeSeq ops = true →
      om.applyOps ops = some om' → om'.exclusive := by
  induction ops with
  | nil =>
      intro om om' hex _ h
      simp only [OM.applyOps, Option.some_inj] at h
      subst h
      exact hex
  | cons op ops ih =>
      intro om om' hex hsafe h
      simp only [OM.applyOps] at h
      cases hap : om.applyOp op with
      | none => rw [hap] at h; simp at h
      | some om₁ =>
          rw [hap] at h
          simp only [Option.some_bind] at h
          simp only [OM.safeSeq, hap, Bool.and_eq_true] at hsafe
          exact ih om₁ om' (exclusive_applyOp om om₁ op hex hsafe.1 hap) hsafe.2 h

/-!  ## Claim C7 -/

/-- C7 amended: no order id appears simultaneously in the allocated map
and the pending map in any state reached by Coordinator operations,
provided `create_order` is never called with an order id that currently
holds an allocation (the source silently overwrites the pending entry of
a duplicate id, so re-creating an allocated order breaks the invariant —
see the counterexample). -/
theorem exclusive_invariant_amended :
    (∀ (om om' : OM) (op : CoordOp),
        om.exclusive → CoordOp.safeFor om op = true →
          om.applyOp op = some om' → om'.exclusive)
    ∧ (∀ (om om' : OM) (ops : List CoordOp),
        om.exclusive → om.safeSeq ops = true →
          om.applyOps ops = some om' → om'.exclusive) :=
  ⟨fun om om' op => exclusive_applyOp om om' op,
    fun om om' ops => exclusive_applyOps ops om om'⟩

/-- Counterexample to C7 as stated: create order `A`, allocate it via
`process_orders`, then call `create_order("A", …)` again — `A` is now in
the allocated map and the pending map at the same time. -/
theorem exclusive_counterexample :
    OM.applyOps ⟨⟨[("R", 5)], [("R", 5)], []⟩, [], [], [], []⟩
        [.create "A" [("R", 1)] 5, .processOrders, .create "A" [("R", 1)] 5]
      = some ⟨⟨[("R", 5)], [("R", 4)], [("A", [("R", 1)])]⟩,
          [("A", [("R", 1)])], [("A", [("R", 1)])], [("A", 5)], []⟩
    ∧ ¬ OM.exclusive ⟨⟨[("R", 5)], [("R", 4)], [("A", [("R", 1)])]⟩,
          [("A", [("R", 1)])], [("A", [("R", 1)])], [("A", 5)], []⟩ := by
  constructor
  · decide
  · intro h
    exact h "A" ⟨by decide, by decide⟩

/-- Witness for C7's amended theorem along the safe sequence
create `A`, process, release `A` from the empty coordinator state. -/
theorem exclusive_invariant_amended_witness :
    (OM.exclusive ⟨⟨[("R", 5)], [("R", 5)], []⟩, [], [], [], []⟩
      ∧ OM.safeSeq ⟨⟨[("R", 5)], [("R", 5)], []⟩, [], [], [], []⟩
          [.create "A" [("R", 1)] 5, .processOrders, .release "A"] = true
      ∧ OM.applyOps ⟨⟨[("R", 5)], [("R", 5)], []⟩, [], [], [], []⟩
          [.create "A" [("R", 1)] 5, .processOrders, .release "A"]
          = some ⟨⟨[("R", 5)], [("R", 5)], []⟩, [], [], [], []⟩)
    ∧ OM.exclusive ⟨⟨[("R", 5)], [("R", 5)], []⟩, [], [], [], []⟩ := by
  have hex : OM.exclusive ⟨⟨[("R", 5)], [("R", 5)], []⟩, [], [], [], []⟩ := by
    intro o ho
    simpa using ho.1
  refine ⟨⟨hex, ?_, ?_⟩, ?_⟩
  · decide
  · decide
  · exact exclusive_invariant_amended.2
      ⟨⟨[("R", 5)], [("R", 5)], []⟩, [], [], [], []⟩
      ⟨⟨[("R", 5)], [("R", 5)], []⟩, [], [], [], []⟩
      [.create "A" [("R", 1)] 5, .processOrders, .release "A"]
      hex (by decide) (by decide)

theorem allocate_fields (rm rm' : RM) (oid : String) (req : Dict String Int)
    (h : rm.allocate oid req = some rm') :
    rm'.allocated_resources = dset rm.allocated_resources oid req
    ∧ rm'.total_resources = rm.total_resources := by
  cases hu : updEntries (fun v q => v - q) rm.available_resources req with
  | none => simp [RM.allocate, hu] at h
  | some avail' =>
      simp only [RM.allocate, hu, Option.map_some'] at h
      injection h with h
      subst h
      exact ⟨rfl, rfl⟩

theorem processPass_conserved (l : List (String × Dict String Int)) :
    ∀ rm orders rem rm' orders' rem',
      processPass rm orders rem l = some (rm', orders', rem') →
      rm.conserved → rm.wf → (dkeys l).Nodup →
      (∀ p ∈ l, dget rm.allocated_resources p.1 = none ∧ (dkeys p.2).Nodup) →
      rm'.conserved ∧ rm'.wf := by
  induction l with
  | nil =>
      intro rm orders rem rm' orders' rem' h hc hw _ _
      simp only [processPass, Option.some_inj, Prod.mk.injEq] at h
      obtain ⟨h1, _, _⟩ := h
      subst h1
      exact ⟨hc, hw⟩
  | cons hd rest ih =>
      obtain ⟨oid, req⟩ := hd
      intro rm orders rem rm' orders' rem' h hc hw hnd hfr
      simp only [dkeys, List.map_cons, List.nodup_cons] at hnd
      simp only [processPass] at h
      by_cases hcan : rm.can_allocate req
      · rw [if_pos hcan] at h
        cases halloc : rm.allocate oid req with
        | none => rw [halloc] at h; simp at h
        | some rm₁ =>
            rw [halloc] at h
            have hfrhd := hfr (oid, req) (List.mem_cons_self _ _)
            have hc₁ := conserved_allocate rm rm₁ oid req hc hfrhd.1 hfrhd.2 halloc
            have hw₁ := wf_allocate rm rm₁ oid req hw hfrhd.1 hfrhd.2 halloc
            refine ih rm₁ _ _ _ _ _ h hc₁ hw₁ (by simpa [dkeys] using hnd.2) ?_
            intro p hp
            have hmem := hfr p (List.mem_cons_of_mem _ hp)
            have hne : oid ≠ p.1 := by
              intro hh
              exact hnd.1 (hh ▸ (List.mem_map_of_mem Prod.fst hp))
            constructor
            · rw [(allocate_fields rm rm₁ oid req halloc).1,
                dget_dset_ne _ _ _ _ hne]
              exact hmem.1
            · exact hmem.2
      · rw [if_neg hcan] at h
        exact ih rm orders rem _ _ _ h hc hw (by simpa [dkeys] using hnd.2)
          fun p hp => hfr p (List.mem_cons_of_mem _ hp)

/-!  ## Claim C1 -/

/-- C1 amended: the conservation invariant
`available[r] + Σ allocated[r] = total[r]` is preserved by
`release_resources`, `preempt_resources` and `add_virtual_resources`
unconditionally, and by `request_resources` (and hence by
`process_orders`, which allocates pending requests) provided the
requested order id does not already hold an allocation — re-requesting
for an id that holds one silently drops the old holdings (see the
counterexample). The Coordinator's `create_order` and `reschedule_order`
never touch the ledger, and `release_order`/`cancel_order` preserve the
invariant unconditionally. -/
theorem conservation_invariant_amended :
    (∀ (rm : RM) (oid : String) (req : Dict String Int) (b : Bool) (rm' : RM),
        rm.conserved → rm.wf → dget rm.allocated_resources oid = none →
        (dkeys req).Nodup →
        rm.request_resources oid req = some (b, rm') → rm'.conserved ∧ rm'.wf)
    ∧ (∀ (rm rm' : RM) (oid : String), rm.conserved → rm.wf →
        rm.release_resources oid = some rm' → rm'.conserved ∧ rm'.wf)
    ∧ (∀ (rm rm' : RM) (oid : String), rm.conserved → rm.wf →
        rm.preempt_resources oid = some rm' → rm'.conserved ∧ rm'.wf)
    ∧ (∀ (rm : RM) (adds : Dict String Int), rm.conserved → rm.wf →
        (rm.add_virtual_resources adds).conserved
          ∧ (rm.add_virtual_resources adds).wf)
    ∧ (∀ (om : OM) (oid : String) (req : Dict String Int) (prio : Int),
        (om.create_order oid req prio).rm = om.rm)
    ∧ (∀ (om : OM) (oid : String) (prio : Int),
        (om.reschedule_order oid prio).rm = om.rm)
    ∧ (∀ om om' : OM, om.rm.conserved → om.rm.wf →
        (dkeys om.pending_requests).Nodup →
        (∀ p ∈ om.pending_requests,
          dget om.rm.allocated_resources p.1 = none ∧ (dkeys p.2).Nodup) →
        om.process_orders = some om' → om'.rm.conserved ∧ om'.rm.wf)
    ∧ (∀ (om om' : OM) (oid : String), om.rm.conserved → om.rm.wf →
        om.release_order oid = some om' → om'.rm.conserved ∧ om'.rm.wf)
    ∧ (∀ (om om' : OM) (oid : String), om.rm.conserved → om.rm.wf →
        om.cancel_order oid = some om' → om'.rm.conserved ∧ om'.rm.wf) := by
  have hrel : ∀ (rm rm' : RM) (oid : String), rm.conserved → rm.wf →
      rm.release_resources oid = some rm' → rm'.conserved ∧ rm'.wf :=
    fun rm rm' oid hc hw h =>
      ⟨conserved_release rm rm' oid hc hw h, wf_release rm rm' oid hw h⟩
  have hrelo : ∀ (om om' : OM) (oid : String), om.rm.conserved → om.rm.wf →
      om.release_order oid = some om' → om'.rm.conserved ∧ om'.rm.wf := by
    intro om om' oid hc hw h
    cases hr : om.rm.release_resources oid with
    | none => simp [OM.release_order, hr] at h
    | some rm' =>
        simp only [OM.release_order, hr, Option.map_some'] at h
        injection h with h
        subst h
        exact hrel om.rm rm' oid hc hw hr
  refine ⟨?_, hrel, ?_, ?_, fun _ _ _ _ => rfl, ?_, ?_, hrelo, hrelo⟩
  · intro rm oid req b rm' hc hw hfresh hnd h
    unfold RM.request_resources at h
    by_cases hcan : rm.can_allocate req
    · rw [if_pos hcan] at h
      cases halloc : rm.allocate oid req with
      | none => rw [halloc] at h; simp at h
      | some rm₁ =>
          rw [halloc] at h
          simp only [Option.map_some', Option.some_inj, Prod.mk.injEq] at h
          obtain ⟨_, hrm⟩ := h
          subst hrm
          exact ⟨conserved_allocate rm rm₁ oid req hc hfresh hnd halloc,
            wf_allocate rm rm₁ oid req hw hfresh hnd halloc⟩
    · rw [if_neg hcan] at h
      simp only [Option.some_inj, Prod.mk.injEq] at h
      obtain ⟨_, hrm⟩ := h
      subst hrm
      exact ⟨hc, hw⟩
  · intro rm rm' oid hc hw h
    have h' : rm.release_resources oid = some rm' := h
    exact hrel rm rm' oid hc hw h'
  · intro rm adds hc hw
    exact ⟨conserved_add_virtual rm adds hc, wf_add_virtual rm adds hw⟩
  · intro om oid prio
    unfold OM.reschedule_order
    by_cases hm : dmem om.order_priorities oid
    · simp [hm]
    · simp [hm]
  · intro om om' hc hw hnd hfr h
    cases hp : processPass om.rm om.orders [] om.sortedPending with
    | none => simp [OM.process_orders, hp] at h
    | some r =>
        obtain ⟨rm', orders', rem'⟩ := r
        simp only [OM.process_orders, hp, Option.map_some'] at h
        injection h with h
        subst h
        have hperm : om.sortedPending.Perm om.pending_requests :=
          List.perm_insertionSort _ om.pending_requests
        refine processPass_conserved om.sortedPending om.rm om.orders [] _ _ _
          hp hc hw ?_ ?_
        · exact ((hperm.map Prod.fst).nodup_iff).mpr hnd
        · exact fun p hpm => hfr p (hperm.mem_iff.mp hpm)

/-- Witness for C1's `request_resources` clause: order `A` (holding
nothing) requests `{R: 1}` from a conserved, well-formed ledger. -/
theorem conservation_invariant_amended_witness :
    (RM.conserved ⟨[("R", 2)], [("R", 1)], [("B", [("R", 1)])]⟩
      ∧ RM.wf ⟨[("R", 2)], [("R", 1)], [("B", [("R", 1)])]⟩
      ∧ dget (⟨[("R", 2)], [("R", 1)], [("B", [("R", 1)])]⟩ : RM).allocated_resources "A" = none
      ∧ (dkeys [("R", (1 : Int))]).Nodup
      ∧ RM.request_resources ⟨[("R", 2)], [("R", 1)], [("B", [("R", 1)])]⟩ "A" [("R", 1)]
          = some (true, ⟨[("R", 2)], [("R", 0)], [("B", [("R", 1)]), ("A", [("R", 1)])]⟩))
    ∧ (RM.conserved ⟨[("R", 2)], [("R", 0)], [("B", [("R", 1)]), ("A", [("R", 1)])]⟩
      ∧ RM.wf ⟨[("R", 2)], [("R", 0)], [("B", [("R", 1)]), ("A", [("R", 1)])]⟩) := by
  have hc : RM.conserved ⟨[("R", 2)], [("R", 1)], [("B", [("R", 1)])]⟩ := by
    intro r
    by_cases h : "R" = r
    · subst h; decide
    · simp [RM.conserved, sumAlloc, dgetD, dget, h]
  have hw : RM.wf ⟨[("R", 2)], [("R", 1)], [("B", [("R", 1)])]⟩ := by
    constructor
    · decide
    · decide
  refine ⟨⟨hc, hw, by decide, by decide, by decide⟩, ?_⟩
  exact conservation_invariant_amended.1
    ⟨[("R", 2)], [("R", 1)], [("B", [("R", 1)])]⟩ "A" [("R", 1)] true
    ⟨[("R", 2)], [("R", 0)], [("B", [("R", 1)]), ("A", [("R", 1)])]⟩
    hc hw (by decide) (by decide) (by decide)

/-!  ## Claim C6 -/

/-- C6: `process_orders` walks the pending orders exactly once per call,
in ascending priority order (the walked list is a permutation of the
pending map, sorted by priority with ties kept stable): every order
granted during the single greedy pass ends in the allocated map with its
request and is removed from pending, every refused order keeps its
pending entry and its allocated entry unchanged, and no order is retried
within the pass — in the end-to-end scenario with `total = {Oven: 1}` and
`Order1`/`Order2` (priorities 1/2) both requesting `{Oven: 1}`, one pass
grants only `Order1` and leaves `Order2` pending, which a later release
plus a second explicit pass then grants. -/
theorem process_orders_greedy (om om' : OM)
    (h : om.process_orders = some om') :
    (om.sortedPending.Perm om.pending_requests
      ∧ List.Sorted
          (fun a b =>
            dgetD om.order_priorities a.1 5 ≤ dgetD om.order_priorities b.1 5)
          om.sortedPending
      ∧ ∃ granted : List String,
          processPass om.rm om.orders [] om.sortedPending
            = some (om'.rm, om'.orders, granted)
          ∧ (∀ o ∈ granted, o ∈ dkeys om.sortedPending)
          ∧ (∀ o ∈ granted, dget om'.pending_requests o = none
              ∧ ∃ req, (o, req) ∈ om.sortedPending ∧ dget om'.orders o = some req)
          ∧ (∀ o, o ∉ granted →
              dget om'.pending_requests o = dget om.pending_requests o
              ∧ dget om'.orders o = dget om.orders o))
    ∧ (OM.applyOps ⟨⟨[("Oven", 1)], [("Oven", 1)], []⟩, [], [], [], []⟩
          [.create "Order1" [("Oven", 1)] 1, .create "Order2" [("Oven", 1)] 2,
            .processOrders]
        = some ⟨⟨[("Oven", 1)], [("Oven", 0)], [("Order1", [("Oven", 1)])]⟩,
            [("Order1", [("Oven", 1)])], [("Order2", [("Oven", 1)])],
            [("Order1", 1), ("Order2", 2)], []⟩
      ∧ OM.applyOps ⟨⟨[("Oven", 1)], [("Oven", 0)], [("Order1", [("Oven", 1)])]⟩,
            [("Order1", [("Oven", 1)])], [("Order2", [("Oven", 1)])],
            [("Order1", 1), ("Order2", 2)], []⟩
          [.release "Order1", .processOrders]
        = some ⟨⟨[("Oven", 1)], [("Oven", 0)], [("Order2", [("Oven", 1)])]⟩,
            [("Order2", [("Oven", 1)])], [], [("Order2", 2)], []⟩) := by
  refine ⟨⟨List.perm_insertionSort _ om.pending_requests, ?_, ?_⟩, by decide, by decide⟩
  · haveI : IsTotal (String × Dict String Int)
        (fun a b =>
          dgetD om.order_priorities a.1 5 ≤ dgetD om.order_priorities b.1 5) :=
      ⟨fun a b => le_total _ _⟩
    haveI : IsTrans (String × Dict String Int)
        (fun a b =>
          dgetD om.order_priorities a.1 5 ≤ dgetD om.order_priorities b.1 5) :=
      ⟨fun a b c hab hbc => le_trans hab hbc⟩
    exact List.sorted_insertionSort _ _
  · cases hp : processPass om.rm om.orders [] om.sortedPending with
    | none => simp [OM.process_orders, hp] at h
    | some r =>
        obtain ⟨rm', orders', rem'⟩ := r
        simp only [OM.process_orders, hp, Option.map_some'] at h
        injection h with h
        subst h
        obtain ⟨news, hrem, hsub, hunch, hgr⟩ :=
          processPass_spec _ _ _ _ _ _ _ hp
        simp only [List.nil_append] at hrem
        subst hrem
        refine ⟨rem', ?_, hsub, ?_, ?_⟩
        · rfl
        · intro o ho
          constructor
          · simp only
            rw [foldl_guarded_derase_dget, if_pos ho]
          · exact hgr o ho
        · intro o ho
          constructor
          · simp only
            rw [foldl_guarded_derase_dget, if_neg ho]
          · exact hunch o ho

/-- Witness for C6 at the state holding pending `Order1` (priority 1) and
`Order2` (priority 2), both requesting the single `Oven`: the pass grants
exactly `Order1`. -/
theorem process_orders_greedy_witness :
    OM.process_orders ⟨⟨[("Oven", 1)], [("Oven", 1)], []⟩, [],
        [("Order1", [("Oven", 1)]), ("Order2", [("Oven", 1)])],
        [("Order1", 1), ("Order2", 2)], []⟩
      = some ⟨⟨[("Oven", 1)], [("Oven", 0)], [("Order1", [("Oven", 1)])]⟩,
          [("Order1", [("Oven", 1)])], [("Order2", [("Oven", 1)])],
          [("Order1", 1), ("Order2", 2)], []⟩
    ∧ ((OM.sortedPending ⟨⟨[("Oven", 1)], [("Oven", 1)], []⟩, [],
          [("Order1", [("Oven", 1)]), ("Order2", [("Oven", 1)])],
          [("Order1", 1), ("Order2", 2)], []⟩).Perm
        [("Order1", [("Oven", 1)]), ("Order2", [("Oven", 1)])]
      ∧ List.Sorted
          (fun a b =>
            dgetD [("Order1", (1 : Int)), ("Order2", 2)] a.1 5 ≤
              dgetD [("Order1", (1 : Int)), ("Order2", 2)] b.1 5)
          (OM.sortedPending ⟨⟨[("Oven", 1)], [("Oven", 1)], []⟩, [],
            [("Order1", [("Oven", 1)]), ("Order2", [("Oven", 1)])],
            [("Order1", 1), ("Order2", 2)], []⟩)
      ∧ ∃ granted : List String,
          processPass ⟨[("Oven", 1)], [("Oven", 1)], []⟩ [] []
              (OM.sortedPending ⟨⟨[("Oven", 1)], [("Oven", 1)], []⟩, [],
                [("Order1", [("Oven", 1)]), ("Order2", [("Oven", 1)])],
                [("Order1", 1), ("Order2", 2)], []⟩)
            = some (⟨[("Oven", 1)], [("Oven", 0)], [("Order1", [("Oven", 1)])]⟩,
                [("Order1", [("Oven", 1)])], granted)
          ∧ (∀ o ∈ granted,
              o ∈ dkeys (OM.sortedPending ⟨⟨[("Oven", 1)], [("Oven", 1)], []⟩, [],
                [("Order1", [("Oven", 1)]), ("Order2", [("Oven", 1)])],
                [("Order1", 1), ("Order2", 2)], []⟩))
          ∧ (∀ o ∈ granted,
              dget [("Order2", [("Oven", (1 : Int))])] o = none
              ∧ ∃ req, (o, req) ∈ OM.sortedPending ⟨⟨[("Oven", 1)], [("Oven", 1)], []⟩, [],
                  [("Order1", [("Oven", 1)]), ("Order2", [("Oven", 1)])],
                  [("Order1", 1), ("Order2", 2)], []⟩
                ∧ dget [("Order1", [("Oven", (1 : Int))])] o = some req)
          ∧ (∀ o, o ∉ granted →
              dget [("Order2", [("Oven", (1 : Int))])] o
                  = dget [("Order1", [("Oven", (1 : Int))]), ("Order2", [("Oven", 1)])] o
              ∧ dget [("Order1", [("Oven", (1 : Int))])] o
                  = dget ([] : Dict String (Dict String Int)) o)) := by
  have h := process_orders_greedy
    ⟨⟨[("Oven", 1)], [("Oven", 1)], []⟩, [],
      [("Order1", [("Oven", 1)]), ("Order2", [("Oven", 1)])],
      [("Order1", 1), ("Order2", 2)], []⟩
    ⟨⟨[("Oven", 1)], [("Oven", 0)], [("Order1", [("Oven", 1)])]⟩,
      [("Order1", [("Oven", 1)])], [("Order2", [("Oven", 1)])],
      [("Order1", 1), ("Order2", 2)], []⟩
    (by decide)
  exact ⟨by decide, h.1⟩

/-!  ## Claim C8 -/

/-- C8: releasing the same order id twice is safe and the second call
leaves the state exactly as the first left it; and
`release_resources` on an order holding no allocation is a no-op that
returns the ledger unchanged (not an error). -/
theorem release_idempotent :
    (∀ (om : OM) (oid : String),
        (om.release_order oid).bind (fun om' => om'.release_order oid)
          = om.release_order oid)
    ∧ (∀ (rm : RM) (oid : String),
        dget rm.allocated_resources oid = none →
          rm.release_resources oid = some rm) := by
  constructor
  · intro om oid
    cases h : om.release_order oid with
    | none => rfl
    | some om' =>
        obtain ⟨h1, h2, h3, h4⟩ := release_order_clears om om' oid h
        have hrm : om'.rm.release_resources oid = some om'.rm := by
          simp [RM.release_resources, h1]
        show om'.release_order oid = some om'
        simp [OM.release_order, hrm, dmem, h2, h3, h4]
  · intro rm oid h
    simp [RM.release_resources, h]

/-!  ## Wait-for-graph lemmas -/

theorem mem_addNode (l : List String) (x b : String) :
    b ∈ addNode l x ↔ b ∈ l ∨ b = x := by
  unfold addNode
  by_cases h : x ∈ l
  · simp only [h, if_true]
    constructor
    · exact Or.inl
    · rintro (hb | hb)
      · exact hb
      · exact hb ▸ h
  · simp [h, List.mem_append]

theorem dget_of_mem_nodup (d : Dict α β) (k : α) (v : β)
    (hnd : (dkeys d).Nodup) (hmem : (k, v) ∈ d) : dget d k = some v := by
  induction d with
  | nil => simp at hmem
  | cons p rest ih =>
      obtain ⟨k₀, v₀⟩ := p
      simp only [dkeys, List.map_cons, List.nodup_cons] at hnd
      rcases List.mem_cons.mp hmem with he | hm
      · obtain ⟨h1, h2⟩ := Prod.mk.injEq .. ▸ he
        subst h1; subst h2
        simp [dget]
      · have hk : k ∈ List.map Prod.fst rest := List.mem_map_of_mem Prod.fst hm
        have hne : k₀ ≠ k := fun hh => hnd.1 (hh ▸ hk)
        simp only [dget_cons, hne, if_false]
        exact ih hnd.2 hm

theorem wfgStep_other (a res x : String) (wfg : Dict String (List String))
    (h : String × Dict String Int) (hx : x ≠ a) :
    dget (wfgStep a res wfg h) x = dget wfg x := by
  unfold wfgStep
  split
  · exact dget_dset_ne _ _ _ _ fun hh => hx hh.symm
  · rfl

theorem fold3_other (allocs : List (String × Dict String Int))
    (a res x : String) (wfg : Dict String (List String)) (hx : x ≠ a) :
    dget (allocs.foldl (wfgStep a res) wfg) x = dget wfg x := by
  induction allocs generalizing wfg with
  | nil => rfl
  | cons hd t ih => rw [List.foldl_cons, ih, wfgStep_other a res x wfg hd hx]

theorem wfgStep_self (a res : String) (wfg : Dict String (List String))
    (h : String × Dict String Int) (b : String) :
    b ∈ dgetD (wfgStep a res wfg h) a [] ↔
      b ∈ dgetD wfg a [] ∨ (b = h.1 ∧ h.1 ≠ a ∧ 0 < dgetD h.2 res 0) := by
  unfold wfgStep
  by_cases hcond : h.1 ≠ a ∧ 0 < dgetD h.2 res 0
  · rw [if_pos hcond, dgetD_dset_self, mem_addNode]
    tauto
  · rw [if_neg hcond]
    tauto

theorem fold3_self (allocs : List (String × Dict String Int))
    (a res : String) (wfg : Dict String (List String)) (b : String) :
    b ∈ dgetD (allocs.foldl (wfgStep a res) wfg) a [] ↔
      b ∈ dgetD wfg a [] ∨
        ∃ al, (b, al) ∈ allocs ∧ b ≠ a ∧ 0 < dgetD al res 0 := by
  induction allocs generalizing wfg with
  | nil => simp
  | cons hd t ih =>
      rw [List.foldl_cons, ih, wfgStep_self]
      constructor
      · rintro ((hin | ⟨hb, hne, hpos⟩) | ⟨al, hmem, hne, hpos⟩)
        · exact Or.inl hin
        · exact Or.inr ⟨hd.2, by rw [hb, Prod.mk.eta]; exact List.mem_cons_self _ _,
            hb ▸ hne, hpos⟩
        · exact Or.inr ⟨al, List.mem_cons_of_mem _ hmem, hne, hpos⟩
      · rintro (hin | ⟨al, hmem, hne, hpos⟩)
        · exact Or.inl (Or.inl hin)
        · rcases List.mem_cons.mp hmem with he | hm
          · obtain ⟨h1, h2⟩ := Prod.mk.injEq .. ▸ he.symm
            exact Or.inl (Or.inr ⟨h1.symm, h1 ▸ hne, by rw [← h2] at hpos; exact hpos⟩)
          · exact Or.inr ⟨al, hm, hne, hpos⟩

theorem fold2_other (items : List (String × Int))
    (allocs : List (String × Dict String Int)) (a x : String)
    (wfg : Dict String (List String)) (hx : x ≠ a) :
    dget (items.foldl (fun wfg q => allocs.foldl (wfgStep a q.1) wfg) wfg) x
      = dget wfg x := by
  induction items generalizing wfg with
  | nil => rfl
  | cons q t ih => rw [List.foldl_cons, ih, fold3_other allocs a q.1 x wfg hx]

theorem fold2_self (items : List (String × Int))
    (allocs : List (String × Dict String Int)) (a : String)
    (wfg : Dict String (List String)) (b : String) :
    b ∈ dgetD (items.foldl (fun wfg q => allocs.foldl (wfgStep a q.1) wfg) wfg) a []
      ↔ b ∈ dgetD wfg a [] ∨
          ∃ q ∈ items, ∃ al, (b, al) ∈ allocs ∧ b ≠ a ∧ 0 < dgetD al q.1 0 := by
  induction items generalizing wfg with
  | nil => simp
  | cons q t ih =>
      rw [List.foldl_cons, ih, fold3_self]
      constructor
      · rintro ((hin | ⟨al, hmem, hne, hpos⟩) | ⟨q', hq', al, hmem, hne, hpos⟩)
        · exact Or.inl hin
        · exact Or.inr ⟨q, List.mem_cons_self _ _, al, hmem, hne, hpos⟩
        · exact Or.inr ⟨q', List.mem_cons_of_mem _ hq', al, hmem, hne, hpos⟩
      · rintro (hin | ⟨q', hq', al, hmem, hne, hpos⟩)
        · exact Or.inl (Or.inl hin)
        · rcases List.mem_cons.mp hq' with he | hm
          · exact Or.inl (Or.inr ⟨al, hmem, hne, he ▸ hpos⟩)
          · exact Or.inr ⟨q', hm, al, hmem, hne, hpos⟩

theorem fold1_self (requests : List (String × Dict String Int))
    (allocs : List (String × Dict String Int))
    (wfg : Dict String (List String)) (x b : String) :
    b ∈ dgetD (requests.foldl
        (fun wfg p => p.2.foldl (fun wfg q => allocs.foldl (wfgStep p.1 q.1) wfg) wfg)
        wfg) x []
      ↔ b ∈ dgetD wfg x [] ∨
          ∃ p ∈ requests, p.1 = x ∧
            ∃ q ∈ p.2, ∃ al, (b, al) ∈ allocs ∧ b ≠ x ∧ 0 < dgetD al q.1 0 := by
  induction requests generalizing wfg with
  | nil => simp
  | cons p t ih =>
      rw [List.foldl_cons, ih]
      by_cases hpx : p.1 = x
      · subst hpx
        rw [fold2_self]
        constructor
        · rintro ((hin | ⟨q, hq, al, hmem, hne, hpos⟩) | ⟨p', hp', hpx', rest⟩)
          · exact Or.inl hin
          · exact Or.inr ⟨p, List.mem_cons_self _ _, rfl, q, hq, al, hmem, hne, hpos⟩
          · exact Or.inr ⟨p', List.mem_cons_of_mem _ hp', hpx', rest⟩
        · rintro (hin | ⟨p', hp', hpx', q, hq, al, hmem, hne, hpos⟩)
          · exact Or.inl (Or.inl hin)
          · rcases List.mem_cons.mp hp' with he | hm
            · subst he
              exact Or.inl (Or.inr ⟨q, hq, al, hmem, hne, hpos⟩)
            · exact Or.inr ⟨p', hm, hpx', q, hq, al, hmem, hne, hpos⟩
      · have hother : dgetD (p.2.foldl
            (fun wfg q => allocs.foldl (wfgStep p.1 q.1) wfg) wfg) x []
            = dgetD wfg x [] := by
          unfold dgetD
          rw [fold2_other p.2 allocs p.1 x wfg fun hh => hpx hh.symm]
        rw [hother]
        constructor
        · rintro (hin | ⟨p', hp', hpx', rest⟩)
          · exact Or.inl hin
          · exact Or.inr ⟨p', List.mem_cons_of_mem _ hp', hpx', rest⟩
        · rintro (hin | ⟨p', hp', hpx', rest⟩)
          · exact Or.inl hin
          · rcases List.mem_cons.mp hp' with he | hm
            · exact absurd (he ▸ hpx') hpx
            · exact Or.inr ⟨p', hm, hpx', rest⟩

theorem wfgStep_keys (a res : String) (wfg : Dict String (List String))
    (h : String × Dict String Int) (ha : a ∈ dkeys wfg) :
    dkeys (wfgStep a res wfg h) = dkeys wfg := by
  unfold wfgStep
  split
  · exact dkeys_dset_of_mem _ _ _ (dget_isSome_of_mem_keys _ _ ha)
  · rfl

theorem fold3_keys (allocs : List (String × Dict String Int))
    (a res : String) (wfg : Dict String (List String)) (ha : a ∈ dkeys wfg) :
    dkeys (allocs.foldl (wfgStep a res) wfg) = dkeys wfg := by
  induction allocs generalizing wfg with
  | nil => rfl
  | cons hd t ih =>
      rw [List.foldl_cons, ih _ (by rw [wfgStep_keys a res wfg hd ha]; exact ha),
        wfgStep_keys a res wfg hd ha]

theorem fold2_keys (items : List (String × Int))
    (allocs : List (String × Dict String Int)) (a : String)
    (wfg : Dict String (List String)) (ha : a ∈ dkeys wfg) :
    dkeys (items.foldl (fun wfg q => allocs.foldl (wfgStep a q.1) wfg) wfg)
      = dkeys wfg := by
  induction items generalizing wfg with
  | nil => rfl
  | cons q t ih =>
      rw [List.foldl_cons, ih _ (by rw [fold3_keys allocs a q.1 wfg ha]; exact ha),
        fold3_keys allocs a q.1 wfg ha]

theorem fold1_keys (requests : List (String × Dict String Int))
    (allocs : List (String × Dict String Int))
    (wfg : Dict String (List String))
    (hall : ∀ p ∈ requests, p.1 ∈ dkeys wfg) :
    dkeys (requests.foldl
        (fun wfg p => p.2.foldl (fun wfg q => allocs.foldl (wfgStep p.1 q.1) wfg) wfg)
        wfg) = dkeys wfg := by
  induction requests generalizing wfg with
  | nil => rfl
  | cons p t ih =>
      have hp := hall p (List.mem_cons_self _ _)
      have hkeys := fold2_keys p.2 allocs p.1 wfg hp
      rw [List.foldl_cons, ih _ ?_, hkeys]
      intro p' hp'
      rw [hkeys]
      exact hall p' (List.mem_cons_of_mem _ hp')

theorem dget_initWfg (orders : List String) (x : String) :
    dget (orders.map fun o => (o, ([] : List String))) x
      = if x ∈ orders then some [] else none := by
  induction orders with
  | nil => simp
  | cons o t ih =>
      simp only [List.map_cons, dget_cons, ih]
      by_cases h : o = x
      · subst h; simp
      · have hx : ¬ (x = o) := fun hh => h hh.symm
        simp [h, hx, List.mem_cons]

/-!  ## Claim C2 -/

/-- C2: for dictionaries with (Python-dict) distinct keys,
`build_wait_for_graph` returns a graph whose node set is exactly the
union of the allocation-holder ids and the requester ids, and which has a
directed edge `x → b` iff `x ≠ b`, `x` has a pending request naming some
resource, and `b` currently holds a positive quantity of that resource. -/
theorem build_wait_for_graph_spec
    (allocations requests : Dict String (Dict String Int))
    (hnda : (dkeys allocations).Nodup) (hndr : (dkeys requests).Nodup) :
    (∀ o, o ∈ dkeys (build_wait_for_graph allocations requests) ↔
        o ∈ dkeys allocations ∨ o ∈ dkeys requests)
    ∧ (∀ x b, b ∈ dgetD (build_wait_for_graph allocations requests) x [] ↔
        (x ≠ b ∧ ∃ req, dget requests x = some req ∧
          ∃ res ∈ dkeys req, 0 < dgetD (dgetD allocations b []) res 0)) := by
  have hinit_keys : dkeys ((dkeys allocations ++ dkeys requests).dedup.map
      fun o => (o, ([] : List String))) = (dkeys allocations ++ dkeys requests).dedup := by
    simp only [dkeys, List.map_map]
    have hcomp : (Prod.fst ∘ fun o : String => (o, ([] : List String))) = id := rfl
    rw [hcomp, List.map_id]
  constructor
  · intro o
    show o ∈ dkeys (requests.foldl _ _) ↔ _
    rw [fold1_keys]
    · rw [hinit_keys, List.mem_dedup, List.mem_append]
    · intro p hp
      rw [hinit_keys, List.mem_dedup, List.mem_append]
      exact Or.inr (List.mem_map_of_mem Prod.fst hp)
  · intro x b
    show b ∈ dgetD (requests.foldl _ _) x [] ↔ _
    rw [fold1_self]
    have hinit : dgetD ((dkeys allocations ++ dkeys requests).dedup.map
        fun o => (o, ([] : List String))) x [] = [] := by
      unfold dgetD
      rw [dget_initWfg]
      by_cases h : x ∈ (dkeys allocations ++ dkeys requests).dedup <;> simp [h]
    rw [hinit]
    simp only [List.not_mem_nil, false_or]
    constructor
    · rintro ⟨p, hp, hpx, q, hq, al, hmem, hne, hpos⟩
      subst hpx
      have hga : dget allocations b = some al := dget_of_mem_nodup _ _ _ hnda hmem
      refine ⟨fun hh => hne hh.symm, p.2,
        dget_of_mem_nodup _ _ _ hndr (Prod.mk.eta ▸ hp), q.1,
        List.mem_map_of_mem Prod.fst hq, ?_⟩
      unfold dgetD
      rw [hga]
      exact hpos
    · rintro ⟨hxb, req, hreq, res, hres, hpos⟩
      cases hga : dget allocations b with
      | none =>
          unfold dgetD at hpos
          rw [hga] at hpos
          simp at hpos
      | some al =>
          unfold dgetD at hpos
          rw [hga] at hpos
          simp only [Option.getD_some] at hpos
          obtain ⟨q, hq, hqfst⟩ := List.mem_map.mp hres
          exact ⟨(x, req), mem_of_dget_eq_some _ _ _ hreq, rfl, q, hq, al,
            mem_of_dget_eq_some _ _ _ hga, fun hh => hxb hh.symm,
            by rw [hqfst]; exact hpos⟩

/-- Witness for C2 at the crossed Oven/Chef scenario. -/
theorem build_wait_for_graph_spec_witness :
    ((dkeys [("A", [("Oven", (1 : Int))]), ("B", [("Chef", 1)])]).Nodup
      ∧ (dkeys [("A", [("Chef", (1 : Int))]), ("B", [("Oven", 1)])]).Nodup)
    ∧ ((∀ o, o ∈ dkeys (build_wait_for_graph
            [("A", [("Oven", 1)]), ("B", [("Chef", 1)])]
            [("A", [("Chef", 1)]), ("B", [("Oven", 1)])]) ↔
          o ∈ dkeys [("A", [("Oven", (1 : Int))]), ("B", [("Chef", 1)])]
            ∨ o ∈ dkeys [("A", [("Chef", (1 : Int))]), ("B", [("Oven", 1)])])
      ∧ (∀ x b, b ∈ dgetD (build_wait_for_graph
            [("A", [("Oven", 1)]), ("B", [("Chef", 1)])]
            [("A", [("Chef", 1)]), ("B", [("Oven", 1)])]) x [] ↔
          (x ≠ b ∧ ∃ req, dget [("A", [("Chef", (1 : Int))]), ("B", [("Oven", 1)])] x
              = some req ∧
            ∃ res ∈ dkeys req,
              0 < dgetD (dgetD [("A", [("Oven", (1 : Int))]), ("B", [("Chef", 1)])] b [])
                res 0))) :=
  ⟨⟨by decide, by decide⟩,
    build_wait_for_graph_spec
      [("A", [("Oven", 1)]), ("B", [("Chef", 1)])]
      [("A", [("Chef", 1)]), ("B", [("Oven", 1)])]
      (by decide) (by decide)⟩

/-- Witness for C8's second part at a ledger whose only allocation belongs
to `B`, released order id `A`. -/
theorem release_idempotent_witness :
    dget (⟨[("R", 2)], [("R", 1)], [("B", [("R", 1)])]⟩ : RM).allocated_resources "A" = none
    ∧ RM.release_resources ⟨[("R", 2)], [("R", 1)], [("B", [("R", 1)])]⟩ "A"
        = some ⟨[("R", 2)], [("R", 1)], [("B", [("R", 1)])]⟩ :=
  ⟨by decide,
    release_idempotent.2 ⟨[("R", 2)], [("R", 1)], [("B", [("R", 1)])]⟩ "A" (by decide)⟩

/-!  ## Claim C3 -/

/-- C3: with `A` holding the Oven and `B` the Chef while `A` waits for
the Chef and `B` for the Oven, `detect` reports exactly the cycle set
`{A, B}`; with `A` holding the Oven and `B` waiting for the Chef (no
overlap), `detect` reports no deadlock. -/
theorem detect_concrete_scenarios :
    detect [("A", [("Oven", 1)]), ("B", [("Chef", 1)])]
        [("A", [("Chef", 1)]), ("B", [("Oven", 1)])] = [["A", "B"]]
    ∧ (detect [("A", [("Oven", 1)]), ("B", [("Chef", 1)])]
          [("A", [("Chef", 1)]), ("B", [("Oven", 1)])]).map List.toFinset
        = [({"A", "B"} : Finset String)]
    ∧ detect [("A", [("Oven", 1)])] [("B", [("Chef", 1)])] = [] :=
  ⟨by decide, by decide, by decide⟩

/-!  ## Banker's-algorithm lemmas -/

theorem bankersStep_sticky (al : Dict String (Dict String Int))
    (acc : Dict String Int × Dict String Bool × Bool) (p : String × Dict String Int)
    (h : acc.2.2 = true) : (bankersStep al acc p).2.2 = true := by
  unfold bankersStep
  split
  · split
    · rfl
    · exact h
  · exact h

theorem bankersFold_sticky (md : List (String × Dict String Int))
    (al : Dict String (Dict String Int)) (acc) (h : acc.2.2 = true) :
    (md.foldl (bankersStep al) acc).2.2 = true := by
  induction md generalizing acc with
  | nil => exact h
  | cons p t ih =>
      rw [List.foldl_cons]
      exact ih _ (bankersStep_sticky al acc p h)

theorem bankersStep_cases (al : Dict String (Dict String Int)) (acc) (p) :
    bankersStep al acc p = acc ∨
      (dgetD acc.2.1 p.1 false = false
        ∧ (bankersStep al acc p).2.1 = dset acc.2.1 p.1 true
        ∧ (bankersStep al acc p).2.2 = true) := by
  by_cases hfin : dgetD acc.2.1 p.1 false = true
  · left
    unfold bankersStep
    rw [hfin]
    simp
  · have hfin' : dgetD acc.2.1 p.1 false = false := by simpa using hfin
    by_cases hall : ((p.2.map fun q => (q.1, q.2 - dgetD (dgetD al p.1 []) q.1 0)).all
        fun q => q.2 ≤ dgetD acc.1 q.1 0) = true
    · right
      refine ⟨hfin', ?_, ?_⟩ <;>
        · unfold bankersStep
          rw [hfin', hall]
          simp
    · left
      unfold bankersStep
      rw [hfin']
      have hall' : ((p.2.map fun q => (q.1, q.2 - dgetD (dgetD al p.1 []) q.1 0)).all
          fun q => q.2 ≤ dgetD acc.1 q.1 0) = false := by simpa using hall
      rw [hall']
      simp

theorem bankersStep_mono (al : Dict String (Dict String Int)) (acc) (p)
    (o : String) (h : dgetD acc.2.1 o false = true) :
    dgetD (bankersStep al acc p).2.1 o false = true := by
  rcases bankersStep_cases al acc p with he | ⟨_, hset, _⟩
  · rw [he]; exact h
  · rw [hset]
    by_cases hop : p.1 = o
    · subst hop
      rw [dgetD_dset_self]
    · rw [dgetD_dset_ne _ _ _ _ _ hop]
      exact h

theorem bankersFold_mono (md : List (String × Dict String Int))
    (al : Dict String (Dict String Int)) (acc) (o : String)
    (h : dgetD acc.2.1 o false = true) :
    dgetD (md.foldl (bankersStep al) acc).2.1 o false = true := by
  induction md generalizing acc with
  | nil => exact h
  | cons p t ih =>
      rw [List.foldl_cons]
      exact ih _ (bankersStep_mono al acc p o h)

theorem bankersFold_new (md : List (String × Dict String Int))
    (al : Dict String (Dict String Int)) (acc)
    (hacc : acc.2.2 = false)
    (h : (md.foldl (bankersStep al) acc).2.2 = true) :
    ∃ o ∈ dkeys md, dgetD acc.2.1 o false = false
      ∧ dgetD (md.foldl (bankersStep al) acc).2.1 o false = true := by
  induction md generalizing acc with
  | nil => rw [List.foldl_nil] at h; rw [hacc] at h; simp at h
  | cons p t ih =>
      rw [List.foldl_cons] at h ⊢
      rcases bankersStep_cases al acc p with he | ⟨hf, hset, htrue⟩
      · rw [he] at h ⊢
        obtain ⟨o, ho, h1, h2⟩ := ih acc hacc h
        exact ⟨o, List.mem_cons_of_mem _ ho, h1, h2⟩
      · refine ⟨p.1, by simp [dkeys], hf, ?_⟩
        apply bankersFold_mono
        rw [hset, dgetD_dset_self]

theorem filter_length_le {γ : Type} (L : List γ) (p q : γ → Bool)
    (himp : ∀ x ∈ L, q x = true → p x = true) :
    (L.filter q).length ≤ (L.filter p).length := by
  induction L with
  | nil => simp
  | cons x t ih =>
      have ht := ih fun y hy => himp y (List.mem_cons_of_mem _ hy)
      by_cases hq : q x = true
      · have hp := himp x (List.mem_cons_self _ _) hq
        simp only [List.filter_cons, hq, hp, if_true, List.length_cons]
        omega
      · have hq' : q x = false := by simpa using hq
        by_cases hp : p x = true
        · simp only [List.filter_cons, hq', hp, Bool.false_eq_true, if_false,
            if_true, List.length_cons]
          omega
        · have hp' : p x = false := by simpa using hp
          simp only [List.filter_cons, hq', hp', Bool.false_eq_true, if_false]
          exact ht

theorem filter_length_lt {γ : Type} (L : List γ) (p q : γ → Bool)
    (himp : ∀ x ∈ L, q x = true → p x = true)
    (o : γ) (ho : o ∈ L) (hp : p o = true) (hq : q o = false) :
    (L.filter q).length < (L.filter p).length := by
  induction L with
  | nil => simp at ho
  | cons x t ih =>
      rcases List.mem_cons.mp ho with he | hm
      · subst he
        simp only [List.filter_cons, hq, hp, Bool.false_eq_true, if_false, if_true,
          List.length_cons]
        have := filter_length_le t p q fun y hy => himp y (List.mem_cons_of_mem _ hy)
        omega
      · have ht := ih (fun y hy => himp y (List.mem_cons_of_mem _ hy)) hm
        by_cases hqx : q x = true
        · have hpx := himp x (List.mem_cons_self _ _) hqx
          simp only [List.filter_cons, hqx, hpx, if_true, List.length_cons]
          omega
        · have hqx' : q x = false := by simpa using hqx
          by_cases hpx : p x = true
          · simp only [List.filter_cons, hqx', hpx, Bool.false_eq_true, if_false,
              if_true, List.length_cons]
            omega
          · have hpx' : p x = false := by simpa using hpx
            simp only [List.filter_cons, hqx', hpx', Bool.false_eq_true, if_false]
            exact ht

theorem scan_progress_decrease (al md : Dict String (Dict String Int))
    (w : Dict String Int) (f : Dict String Bool)
    (h : (bankersScan al md w f).2.2 = true) :
    unfinishedCount md (bankersScan al md w f).2.1 < unfinishedCount md f := by
  have hfold : bankersScan al md w f = md.foldl (bankersStep al) (w, f, false) := rfl
  obtain ⟨o, ho, h1, h2⟩ :=
    bankersFold_new md al (w, f, false) rfl (by rw [← hfold]; exact h)
  unfold unfinishedCount
  refine filter_length_lt _ _ _ ?_ o (List.mem_dedup.mpr ho) ?_ ?_
  · intro x _ hqx
    by_contra hpx
    simp only at hpx hqx
    have hfx : dgetD f x false = true := by
      cases hv : dgetD f x false
      · rw [hv] at hpx
        simp at hpx
      · rfl
    have hm := bankersFold_mono md al (w, f, false) x hfx
    rw [hfold, hm] at hqx
    simp at hqx
  · have h1' : dgetD f o false = false := h1
    rw [h1']
    rfl
  · have h2' : dgetD (md.foldl (bankersStep al) (w, f, false)).2.1 o false = true := h2
    rw [hfold, h2']
    rfl

theorem unfinishedCount_lt_fuel (md : Dict String (Dict String Int))
    (f : Dict String Bool) : unfinishedCount md f < bankersFuel md := by
  unfold unfinishedCount bankersFuel
  have := List.length_filter_le (fun o => !(dgetD f o false)) (dkeys md).dedup
  omega

theorem bankersLoop_fix (al md : Dict String (Dict String Int)) :
    ∀ (fuel : Nat) (w : Dict String Int) (f : Dict String Bool),
      unfinishedCount md f < fuel →
      (bankersScan al md (bankersLoop al md fuel w f).1
          (bankersLoop al md fuel w f).2).2.2 = false := by
  intro fuel
  induction fuel with
  | zero => intro w f h; omega
  | succ fuel ih =>
      intro w f h
      simp only [bankersLoop]
      by_cases hr : (bankersScan al md w f).2.2
      · rw [if_pos hr]
        apply ih
        have := scan_progress_decrease al md w f hr
        omega
      · rw [if_neg hr]
        simpa using hr

theorem bankersLoop_eq_scanSteps (al md : Dict String (Dict String Int)) :
    ∀ (fuel : Nat) (w : Dict String Int) (f : Dict String Bool),
      ∃ k, bankersLoop al md fuel w f = scanSteps al md k (w, f) := by
  intro fuel
  induction fuel with
  | zero => intro w f; exact ⟨0, rfl⟩
  | succ fuel ih =>
      intro w f
      simp only [bankersLoop]
      by_cases hr : (bankersScan al md w f).2.2
      · rw [if_pos hr]
        obtain ⟨k, hk⟩ := ih (bankersScan al md w f).1 (bankersScan al md w f).2.1
        exact ⟨k + 1, hk⟩
      · rw [if_neg hr]
        exact ⟨0, rfl⟩

/-!  ## Claim C4 -/

/-- C4: `bankers_algorithm` repeatedly applies the full scan (the loop
state is `scanSteps k` of the initial `(available, all-unfinished)`
state), stops exactly when a full scan makes no progress (the exit state
is a no-progress fixpoint of the scan), and returns `True` iff every
order is then marked finished; an order's turn in a scan finishes it iff
it is unfinished and every entry of its `need = max − allocation` is at
most the `work` entry (missing entries 0), releasing its entire current
allocation into `work`; in particular `available = {R: 2}` with `X`
(alloc `{R: 1}`, max `{R: 2}`) and `Y` (alloc `{R: 1}`, max `{R: 1}`) is
reported safe. -/
theorem bankers_algorithm_spec :
    (∀ md al av,
        (∃ k, bankersLoop al md (bankersFuel md) av (md.map fun p => (p.1, false))
            = scanSteps al md k (av, md.map fun p => (p.1, false)))
        ∧ (bankersScan al md
              (bankersLoop al md (bankersFuel md) av (md.map fun p => (p.1, false))).1
              (bankersLoop al md (bankersFuel md) av
                (md.map fun p => (p.1, false))).2).2.2 = false
        ∧ bankers_algorithm md al av
            = ((bankersLoop al md (bankersFuel md) av
                (md.map fun p => (p.1, false))).2.all fun p => p.2))
    ∧ (∀ al acc p, dgetD acc.2.1 p.1 false = false →
        bankersStep al acc p =
          if (p.2.map fun q => (q.1, q.2 - dgetD (dgetD al p.1 []) q.1 0)).all
              (fun q => q.2 ≤ dgetD acc.1 q.1 0) then
            ((dgetD al p.1 []).foldl
                (fun w q =>
                  dset w q.1 (dgetD w q.1 0 + dgetD (dgetD al p.1 []) q.1 0))
                acc.1,
              dset acc.2.1 p.1 true, true)
          else acc)
    ∧ (∀ al acc p, dgetD acc.2.1 p.1 false = true → bankersStep al acc p = acc)
    ∧ bankers_algorithm [("X", [("R", 2)]), ("Y", [("R", 1)])]
        [("X", [("R", 1)]), ("Y", [("R", 1)])] [("R", 2)] = true := by
  refine ⟨?_, ?_, ?_, by decide⟩
  · intro md al av
    exact ⟨bankersLoop_eq_scanSteps al md (bankersFuel md) av _,
      bankersLoop_fix al md (bankersFuel md) av _ (unfinishedCount_lt_fuel md _),
      rfl⟩
  · intro al acc p hfin
    unfold bankersStep
    rw [hfin]
    simp
  · intro al acc p hfin
    unfold bankersStep
    rw [hfin]
    simp

end DD
